import Mathlib

/-!
Verification of the screen-position detection pipeline of the
multi-screen-sync controller (`src/public/js/controller.js`).

The JavaScript is shallowly embedded: numbers that the code manipulates
exactly (pixel indices, 8-bit channel values, rational geometry) are
modelled as `ℕ` / `ℚ`, and quantities that genuinely pass through
transcendental functions (`Math.exp` in the Gaussian kernel and the
sampling weights, `Math.sqrt` in the adaptive threshold) are modelled as
real numbers, i.e. the idealised exact-arithmetic semantics of the
floating-point program.
-/

open scoped Classical

/-! ### Configuration (the `CONFIG` object of controller.js) -/

def CONFIG_brightnessThreshold : ℚ := 40

def CONFIG_minBlobSize : ℕ := 30

def CONFIG_canvasSize : ℕ := 200

def CONFIG_morphologyKernel : ℕ := 3

def CONFIG_gaussianBlurRadius : ℕ := 2

def CONFIG_minNormalizedArea : ℚ := 2 / 100

def CONFIG_maxNormalizedArea : ℚ := 65 / 100

/-! ### Geometry helpers (`normalizeRectToSquare`, `normalizePointToSquare`,
`denormalizeRectFromSquare`, `clampRect`) -/

structure Rect where
  x : ℚ
  y : ℚ
  width : ℚ
  height : ℚ
deriving DecidableEq, Repr

/-- Embedding of `normalizeRectToSquare(rect, width, height)`:
the JS test `width >= height` selects the landscape branch. -/
def normalizeRectToSquare (rect : Rect) (width height : ℚ) : Rect :=
  if height ≤ width then
    { x := rect.x / width
      y := (rect.y / height) * (height / width) + (1 - height / width) / 2
      width := rect.width / width
      height := (rect.height / height) * (height / width) }
  else
    { x := (rect.x / width) * (width / height) + (1 - width / height) / 2
      y := rect.y / height
      width := (rect.width / width) * (width / height)
      height := rect.height / height }

/-- Embedding of `denormalizeRectFromSquare(rect, width, height)`. -/
def denormalizeRectFromSquare (rect : Rect) (width height : ℚ) : Rect :=
  if height ≤ width then
    { x := rect.x * width
      y := ((rect.y - (1 - height / width) / 2) / (height / width)) * height
      width := rect.width * width
      height := (rect.height / (height / width)) * height }
  else
    { x := ((rect.x - (1 - width / height) / 2) / (width / height)) * width
      y := rect.y * height
      width := (rect.width / (width / height)) * width
      height := rect.height * height }

/-- Embedding of `clampRect(rect)`. -/
def clampRect (rect : Rect) : Rect :=
  { x := min (max rect.x 0) 1
    y := min (max rect.y 0) 1
    width := min (max rect.width CONFIG_minNormalizedArea) CONFIG_maxNormalizedArea
    height := min (max rect.height CONFIG_minNormalizedArea) CONFIG_maxNormalizedArea }

/-- All output bounds of `clampRect` in one helper. -/
lemma clampRect_spec (rect : Rect) :
    0 ≤ (clampRect rect).x ∧ (clampRect rect).x ≤ 1 ∧
    0 ≤ (clampRect rect).y ∧ (clampRect rect).y ≤ 1 ∧
    CONFIG_minNormalizedArea ≤ (clampRect rect).width ∧
    (clampRect rect).width ≤ CONFIG_maxNormalizedArea ∧
    CONFIG_minNormalizedArea ≤ (clampRect rect).height ∧
    (clampRect rect).height ≤ CONFIG_maxNormalizedArea := by
  unfold clampRect CONFIG_minNormalizedArea CONFIG_maxNormalizedArea
  refine ⟨?_, ?_, ?_, ?_, ?_, ?_, ?_, ?_⟩ <;>
    simp only [le_min_iff, min_le_iff, le_max_iff, max_le_iff] <;> norm_num

/-! ### Frames and `averageFrames` -/

/-- `Math.round` on a non-negative exact value: round half away from zero,
which for non-negative arguments is `⌊q + 1/2⌋`. -/
def jsRound (q : ℚ) : ℤ := ⌊q + 1 / 2⌋

/-- Storing an integer into a `Uint8ClampedArray` slot clamps it to
`[0, 255]`. -/
def uint8ClampedWrite (v : ℤ) : ℕ := (min 255 (max 0 v)).toNat

/-- An `ImageData`: dimensions plus the RGBA byte buffer, modelled as a
total function on flat indices; indices at or beyond `4·width·height` are
outside the buffer and read as `0`. -/
structure Frame where
  width : ℕ
  height : ℕ
  data : ℕ → ℕ

instance : Inhabited Frame := ⟨⟨0, 0, fun _ => 0⟩⟩

/-- A frame is well formed when its bytes are 8-bit values and reads
outside the buffer are zero (as in our buffer model). -/
def Frame.wf (f : Frame) : Prop :=
  (∀ i, f.data i ≤ 255) ∧ (∀ i, 4 * f.width * f.height ≤ i → f.data i = 0)

/-- Embedding of `averageFrames(frames)`: dimensions come from
`frames[0]`; every buffer byte of the fresh `ImageData` is set to
`Math.round` of the per-index arithmetic mean. -/
def averageFrames (frames : List Frame) : Frame :=
  { width := frames.headI.width
    height := frames.headI.height
    data := fun i =>
      if i < 4 * frames.headI.width * frames.headI.height then
        uint8ClampedWrite
          (jsRound ((frames.map fun f => (f.data i : ℚ)).sum / frames.length))
      else 0 }

lemma uint8ClampedWrite_of_mem (v : ℤ) (h0 : 0 ≤ v) (h255 : v ≤ 255) :
    (uint8ClampedWrite v : ℤ) = v := by
  unfold uint8ClampedWrite
  rw [max_eq_right h0, min_eq_right h255]
  exact Int.toNat_of_nonneg h0

lemma jsRound_natCast (n : ℕ) : jsRound (n : ℚ) = n := by
  unfold jsRound
  rw [Int.floor_eq_iff]
  constructor <;> push_cast <;> linarith

lemma jsRound_nonneg {q : ℚ} (h : 0 ≤ q) : 0 ≤ jsRound q := by
  unfold jsRound
  exact Int.le_floor.mpr (by push_cast; linarith)

lemma jsRound_le_of_le {q : ℚ} {n : ℕ} (h : q ≤ n) : jsRound q ≤ n := by
  unfold jsRound
  have : q + 1 / 2 < (n : ℚ) + 1 := by linarith
  exact Int.lt_add_one_iff.mp (Int.floor_lt.mpr (by push_cast; linarith))

lemma list_sum_le_length_mul {l : List ℚ} {c : ℚ} (h : ∀ x ∈ l, x ≤ c) :
    l.sum ≤ l.length * c := by
  induction l with
  | nil => simp
  | cons a t ih =>
      simp only [List.sum_cons, List.length_cons]
      have ha := h a (List.mem_cons_self a t)
      have ht := ih fun x hx => h x (List.mem_cons_of_mem a hx)
      push_cast
      nlinarith

lemma list_sum_nonneg_q {l : List ℚ} (h : ∀ x ∈ l, 0 ≤ x) : 0 ≤ l.sum := by
  induction l with
  | nil => simp
  | cons a t ih =>
      simp only [List.sum_cons]
      have := h a (List.mem_cons_self a t)
      have := ih fun x hx => h x (List.mem_cons_of_mem a hx)
      linarith

/-! ### Claim C7 — averageFrames computes rounded per-channel means -/

/-- C7: for every non-empty list of equal-sized well-formed frames,
`averageFrames` yields a frame of the same dimensions whose every buffer
byte is the arithmetic mean of the corresponding bytes, rounded to the
nearest integer, and lies in `[0, 255]` (it is a `ℕ`, hence `≥ 0`); and
`averageFrames [f] = f` for every well-formed frame `f`. -/
theorem c7_averageFrames_mean_identity :
    (∀ frames : List Frame, frames ≠ [] →
      (∀ f ∈ frames, f.width = frames.headI.width ∧ f.height = frames.headI.height) →
      (∀ f ∈ frames, f.wf) →
      (averageFrames frames).width = frames.headI.width ∧
      (averageFrames frames).height = frames.headI.height ∧
      ∀ i, i < 4 * frames.headI.width * frames.headI.height →
        ((averageFrames frames).data i : ℤ)
            = jsRound ((frames.map fun f => (f.data i : ℚ)).sum / frames.length) ∧
        (averageFrames frames).data i ≤ 255) ∧
    (∀ f : Frame, f.wf → averageFrames [f] = f) := by
  constructor
  · intro frames hne _hdim hwf
    refine ⟨rfl, rfl, fun i hi => ?_⟩
    have hn : 0 < (frames.length : ℚ) := by
      have : 0 < frames.length := List.length_pos.mpr hne
      exact_mod_cast this
    set q : ℚ := (frames.map fun f => (f.data i : ℚ)).sum / frames.length with hq
    have hq0 : 0 ≤ q := by
      apply div_nonneg _ hn.le
      exact list_sum_nonneg_q (by
        intro x hx
        obtain ⟨f, _, rfl⟩ := List.mem_map.mp hx
        positivity)
    have hq255 : q ≤ 255 := by
      rw [hq, div_le_iff hn]
      calc (frames.map fun f => (f.data i : ℚ)).sum
          ≤ (frames.map fun f => (f.data i : ℚ)).length * 255 := by
            apply list_sum_le_length_mul
            intro x hx
            obtain ⟨f, hf, rfl⟩ := List.mem_map.mp hx
            exact_mod_cast (hwf f hf).1 i
        _ = 255 * frames.length := by rw [List.length_map]; ring
    have hr0 : 0 ≤ jsRound q := jsRound_nonneg hq0
    have hr255 : jsRound q ≤ (255 : ℕ) := jsRound_le_of_le hq255
    have hval : ((averageFrames frames).data i : ℤ) = jsRound q := by
      simp only [averageFrames, if_pos hi]
      exact uint8ClampedWrite_of_mem _ hr0 (by exact_mod_cast hr255)
    refine ⟨hval, ?_⟩
    have := hval ▸ hr255
    exact_mod_cast this
  · intro f hf
    cases f with
    | mk w h d =>
        simp only [averageFrames, List.headI]
        congr 1
        funext i
        by_cases hi : i < 4 * w * h
        · simp only [if_pos hi, List.map_cons, List.map_nil, List.sum_cons, List.sum_nil,
            List.length_cons, List.length_nil]
          norm_num
          rw [jsRound_natCast]
          have hle : (d i : ℤ) ≤ 255 := by exact_mod_cast hf.1 i
          have := uint8ClampedWrite_of_mem (d i) (by positivity) hle
          exact_mod_cast this
        · simp only [if_neg hi]
          exact (hf.2 i (le_of_not_lt hi)).symm

/-- A concrete 1 × 1 frame with constant byte 10. -/
def wFrameA : Frame := ⟨1, 1, fun i => if i < 4 then 10 else 0⟩

/-- A concrete 1 × 1 frame with constant byte 20. -/
def wFrameB : Frame := ⟨1, 1, fun i => if i < 4 then 20 else 0⟩

lemma wFrameA_wf : wFrameA.wf := by
  constructor <;> intro i <;> simp only [wFrameA] <;> split <;> omega

lemma wFrameB_wf : wFrameB.wf := by
  constructor <;> intro i <;> simp only [wFrameB] <;> split <;> omega

/-- Witness for C7: averaging the two concrete frames gives byte 15 at
index 0, and averaging the singleton list returns the frame itself. -/
theorem c7_witness :
    ((averageFrames [wFrameA, wFrameB]).data 0 : ℤ)
        = jsRound ((([wFrameA, wFrameB].map fun f => (f.data 0 : ℚ)).sum
            / ([wFrameA, wFrameB] : List Frame).length)) ∧
    averageFrames [wFrameA] = wFrameA := by
  refine ⟨?_, c7_averageFrames_mean_identity.2 wFrameA wFrameA_wf⟩
  have h := (c7_averageFrames_mean_identity.1 [wFrameA, wFrameB] (by simp)
    (by
      intro f hfm
      rcases List.mem_cons.mp hfm with rfl | hfm'
      · exact ⟨rfl, rfl⟩
      · rcases List.mem_cons.mp hfm' with rfl | hfm''
        · exact ⟨rfl, rfl⟩
        · cases hfm''
      )
    (by
      intro f hfm
      rcases List.mem_cons.mp hfm with rfl | hfm'
      · exact wFrameA_wf
      · rcases List.mem_cons.mp hfm' with rfl | hfm''
        · exact wFrameB_wf
        · cases hfm''
      )).2.2 0 (by norm_num [wFrameA])
  exact h.1

/-! ### Claim C2 — the two geometry transforms are mutual inverses -/

/-- C2: for every rectangle `R` and positive dimensions `w`, `h`,
`denormalizeRectFromSquare (normalizeRectToSquare R w h) w h = R` exactly,
over exact arithmetic. -/
theorem c2_normalize_denormalize_round_trip (r : Rect) (w h : ℕ)
    (hw : 0 < w) (hh : 0 < h) :
    denormalizeRectFromSquare (normalizeRectToSquare r (w : ℚ) (h : ℚ)) (w : ℚ) (h : ℚ) = r := by
  have hw' : (w : ℚ) ≠ 0 := by exact_mod_cast hw.ne'
  have hh' : (h : ℚ) ≠ 0 := by exact_mod_cast hh.ne'
  rcases le_or_lt (h : ℚ) (w : ℚ) with hle | hlt
  · simp only [normalizeRectToSquare, denormalizeRectFromSquare, if_pos hle]
    cases r
    simp only [Rect.mk.injEq]
    refine ⟨?_, ?_, ?_, ?_⟩ <;> field_simp <;> ring
  · simp only [normalizeRectToSquare, denormalizeRectFromSquare, if_neg (not_le.mpr hlt)]
    cases r
    simp only [Rect.mk.injEq]
    refine ⟨?_, ?_, ?_, ?_⟩ <;> field_simp <;> ring

/-- Witness for C2 at a concrete input: rectangle (1, 2, 3, 4) in a
4 × 3 frame round-trips exactly. -/
theorem c2_witness :
    0 < 4 ∧ 0 < 3 ∧
      denormalizeRectFromSquare
        (normalizeRectToSquare ⟨1, 2, 3, 4⟩ ((4 : ℕ) : ℚ) ((3 : ℕ) : ℚ))
        ((4 : ℕ) : ℚ) ((3 : ℕ) : ℚ) = ⟨1, 2, 3, 4⟩ :=
  ⟨by norm_num, by norm_num,
    c2_normalize_denormalize_round_trip ⟨1, 2, 3, 4⟩ 4 3 (by norm_num) (by norm_num)⟩

/-! ### Claim C6 — clampRect output bounds -/

/-- C6: for every input rectangle (including negative, oversized or
degenerate ones) `clampRect` returns a rectangle with
`minNormalizedArea ≤ width, height ≤ maxNormalizedArea` and
`0 ≤ x, y ≤ 1`. -/
theorem c6_clampRect_bounds (rect : Rect) :
    CONFIG_minNormalizedArea ≤ (clampRect rect).width ∧
    (clampRect rect).width ≤ CONFIG_maxNormalizedArea ∧
    CONFIG_minNormalizedArea ≤ (clampRect rect).height ∧
    (clampRect rect).height ≤ CONFIG_maxNormalizedArea ∧
    0 ≤ (clampRect rect).x ∧ (clampRect rect).x ≤ 1 ∧
    0 ≤ (clampRect rect).y ∧ (clampRect rect).y ≤ 1 := by
  obtain ⟨h1, h2, h3, h4, h5, h6, h7, h8⟩ := clampRect_spec rect
  exact ⟨h5, h6, h7, h8, h1, h2, h3, h4⟩

/-! ### Morphology (`dilate`, `erode`) -/

/-- `Math.min(Math.max(v, 0), top)` on signed indices. -/
def clampIdx (v top : ℤ) : ℤ := min (max v 0) top

/-- The kernel offsets `-half .. half` with `half = ⌊kernelSize / 2⌋`. -/
def kernelOffsets (kernelSize : ℕ) : List ℤ :=
  (List.range (2 * (kernelSize / 2) + 1)).map fun j => (j : ℤ) - (kernelSize / 2)

/-- Embedding of `dilate(mask, width, height, kernelSize)`: each output
pixel is the running `Math.max` (initial value `0`) of the edge-clamped
neighborhood; indices outside the `width·height` buffer read `0`. -/
def dilate (mask : ℕ → ℕ) (width height kernelSize : ℕ) : ℕ → ℕ := fun idx =>
  if idx < width * height then
    (kernelOffsets kernelSize).foldl
      (fun acc ky =>
        (kernelOffsets kernelSize).foldl
          (fun acc2 kx =>
            max acc2 (mask ((clampIdx ((idx / width : ℕ) + ky) (height - 1)).toNat * width
              + (clampIdx ((idx % width : ℕ) + kx) (width - 1)).toNat)))
          acc)
      0
  else 0

/-- Embedding of `erode(mask, width, height, kernelSize)`: running
`Math.min` with initial value `255`. -/
def erode (mask : ℕ → ℕ) (width height kernelSize : ℕ) : ℕ → ℕ := fun idx =>
  if idx < width * height then
    (kernelOffsets kernelSize).foldl
      (fun acc ky =>
        (kernelOffsets kernelSize).foldl
          (fun acc2 kx =>
            min acc2 (mask ((clampIdx ((idx / width : ℕ) + ky) (height - 1)).toNat * width
              + (clampIdx ((idx % width : ℕ) + kx) (width - 1)).toNat)))
          acc)
      255
  else 0

lemma foldl_preserves {α : Type} (P : ℕ → Prop) (f : ℕ → α → ℕ)
    (l : List α) (acc : ℕ) (hacc : P acc) (hf : ∀ b a, P b → P (f b a)) :
    P (l.foldl f acc) := by
  induction l generalizing acc with
  | nil => exact hacc
  | cons a t ih => exact ih (f acc a) (hf acc a hacc)

lemma max_binary {x y : ℕ} (hx : x = 0 ∨ x = 255) (hy : y = 0 ∨ y = 255) :
    max x y = 0 ∨ max x y = 255 := by
  rcases hx with rfl | rfl <;> rcases hy with rfl | rfl <;> simp

lemma min_binary {x y : ℕ} (hx : x = 0 ∨ x = 255) (hy : y = 0 ∨ y = 255) :
    min x y = 0 ∨ min x y = 255 := by
  rcases hx with rfl | rfl <;> rcases hy with rfl | rfl <;> simp

/-- Binary masks (`{0, 255}`-valued) stay binary through `dilate`. -/
lemma dilate_binary (mask : ℕ → ℕ) (w h k : ℕ)
    (hm : ∀ i, mask i = 0 ∨ mask i = 255) :
    ∀ i, dilate mask w h k i = 0 ∨ dilate mask w h k i = 255 := by
  intro i
  unfold dilate
  split
  · apply foldl_preserves (fun v => v = 0 ∨ v = 255)
    · exact Or.inl rfl
    · intro b a hb
      apply foldl_preserves (fun v => v = 0 ∨ v = 255) _ _ _ hb
      intro b2 a2 hb2
      exact max_binary hb2 (hm _)
  · exact Or.inl rfl

/-- Binary masks stay binary through `erode`. -/
lemma erode_binary (mask : ℕ → ℕ) (w h k : ℕ)
    (hm : ∀ i, mask i = 0 ∨ mask i = 255) :
    ∀ i, erode mask w h k i = 0 ∨ erode mask w h k i = 255 := by
  intro i
  unfold erode
  split
  · apply foldl_preserves (fun v => v = 0 ∨ v = 255)
    · exact Or.inr rfl
    · intro b a hb
      apply foldl_preserves (fun v => v = 0 ∨ v = 255) _ _ _ hb
      intro b2 a2 hb2
      exact min_binary hb2 (hm _)
  · exact Or.inl rfl

/-! ### Claim C10 — binary masks stay binary through morphology -/

/-- C10: for every `{0, 255}`-valued mask and every odd kernel size `≥ 1`,
`dilate` and `erode` outputs are `{0, 255}`-valued, hence after the
dilate-then-erode closing every pixel is exactly `0` or exactly `255` and
the `mask == 255` test partitions all pixels (each pixel is `255` and not
`0`, or `0` and not `255`). -/
theorem c10_morphology_binary (mask : ℕ → ℕ) (w h k : ℕ)
    (hm : ∀ i, mask i = 0 ∨ mask i = 255) (_hk1 : 1 ≤ k) (_hodd : k % 2 = 1) :
    (∀ i, dilate mask w h k i = 0 ∨ dilate mask w h k i = 255) ∧
    (∀ i, erode mask w h k i = 0 ∨ erode mask w h k i = 255) ∧
    (∀ i, erode (dilate mask w h k) w h k i = 0 ∨
      erode (dilate mask w h k) w h k i = 255) ∧
    (∀ i,
      (erode (dilate mask w h k) w h k i = 255 ∧
        ¬ erode (dilate mask w h k) w h k i = 0) ∨
      (erode (dilate mask w h k) w h k i = 0 ∧
        ¬ erode (dilate mask w h k) w h k i = 255)) := by
  have hd := dilate_binary mask w h k hm
  have he := erode_binary mask w h k hm
  have hc := erode_binary (dilate mask w h k) w h k hd
  refine ⟨hd, he, hc, fun i => ?_⟩
  rcases hc i with h0 | h255
  · exact Or.inr ⟨h0, by omega⟩
  · exact Or.inl ⟨h255, by omega⟩

/-- A concrete binary 2 × 2 mask: only pixel (0, 0) is lit. -/
def wMask : ℕ → ℕ := fun i => if i = 0 then 255 else 0

/-- Witness for C10 at the concrete mask, 2 × 2 frame, kernel size 3. -/
theorem c10_witness :
    (∀ i, dilate wMask 2 2 3 i = 0 ∨ dilate wMask 2 2 3 i = 255) ∧
    (∀ i, erode wMask 2 2 3 i = 0 ∨ erode wMask 2 2 3 i = 255) ∧
    (∀ i, erode (dilate wMask 2 2 3) 2 2 3 i = 0 ∨
      erode (dilate wMask 2 2 3) 2 2 3 i = 255) ∧
    (∀ i,
      (erode (dilate wMask 2 2 3) 2 2 3 i = 255 ∧
        ¬ erode (dilate wMask 2 2 3) 2 2 3 i = 0) ∨
      (erode (dilate wMask 2 2 3) 2 2 3 i = 0 ∧
        ¬ erode (dilate wMask 2 2 3) 2 2 3 i = 255)) :=
  c10_morphology_binary wMask 2 2 3
    (fun i => by unfold wMask; split <;> simp) (by norm_num) (by norm_num)

/-! ### Adaptive threshold (`calculateAdaptiveThreshold`) -/

/-- Embedding of `calculateAdaptiveThreshold(data, width, height)`: one
pass over the difference map accumulating sum, sum of squares and count of
the entries strictly greater than 5, then
`max(brightnessThreshold, mean + stdDev·1.5)` with
`stdDev = √(sumSq/count − mean²)`; if no entry qualifies, the configured
minimum is returned. -/
noncomputable def calculateAdaptiveThreshold (data : ℕ → ℝ) (width height : ℕ) : ℝ :=
  let sum : ℝ := ∑ i ∈ Finset.range (width * height), if 5 < data i then data i else 0
  let sumSq : ℝ :=
    ∑ i ∈ Finset.range (width * height), if 5 < data i then data i * data i else 0
  let count : ℕ := ∑ i ∈ Finset.range (width * height), if 5 < data i then 1 else 0
  if count = 0 then (CONFIG_brightnessThreshold : ℝ)
  else
    max (CONFIG_brightnessThreshold : ℝ)
      (sum / count + Real.sqrt (sumSq / count - (sum / count) * (sum / count)) * 1.5)

/-- The spec's qualifying entries: indices whose difference value strictly
exceeds the noise floor 5. -/
noncomputable def specQualifying (data : ℕ → ℝ) (n : ℕ) : Finset ℕ :=
  (Finset.range n).filter fun i => 5 < data i

/-- The spec's mean over qualifying entries. -/
noncomputable def specMean (data : ℕ → ℝ) (n : ℕ) : ℝ :=
  (∑ i ∈ specQualifying data n, data i) / (specQualifying data n).card

/-- The spec's standard deviation over qualifying entries (root of the
mean squared deviation). -/
noncomputable def specStdDev (data : ℕ → ℝ) (n : ℕ) : ℝ :=
  Real.sqrt
    ((∑ i ∈ specQualifying data n, (data i - specMean data n) ^ 2)
      / (specQualifying data n).card)

/-! ### Claim C4 — the adaptive threshold formula -/

/-- C4: `calculateAdaptiveThreshold` returns
`max(brightnessThreshold, mean + 1.5·stdDev)` where mean and standard
deviation range only over entries strictly greater than 5, and exactly the
configured minimum threshold when no entry exceeds 5. -/
theorem c4_adaptive_threshold_formula (data : ℕ → ℝ) (width height : ℕ) :
    (specQualifying data (width * height) ≠ ∅ →
      calculateAdaptiveThreshold data width height
        = max (CONFIG_brightnessThreshold : ℝ)
            (specMean data (width * height)
              + 1.5 * specStdDev data (width * height))) ∧
    (specQualifying data (width * height) = ∅ →
      calculateAdaptiveThreshold data width height
        = (CONFIG_brightnessThreshold : ℝ)) := by
  have hsum : (∑ i ∈ Finset.range (width * height), if 5 < data i then data i else 0)
      = ∑ i ∈ specQualifying data (width * height), data i := by
    rw [specQualifying, Finset.sum_filter]
  have hsumSq :
      (∑ i ∈ Finset.range (width * height), if 5 < data i then data i * data i else 0)
      = ∑ i ∈ specQualifying data (width * height), data i * data i := by
    rw [specQualifying, Finset.sum_filter]
  have hcount : (∑ i ∈ Finset.range (width * height), if 5 < data i then 1 else 0)
      = (specQualifying data (width * height)).card := by
    rw [specQualifying, Finset.card_filter]
  constructor
  · intro hne
    have hpos : 0 < (specQualifying data (width * height)).card :=
      Finset.card_pos.mpr (Finset.nonempty_iff_ne_empty.mpr hne)
    have hm : ((specQualifying data (width * height)).card : ℝ) ≠ 0 := by
      exact_mod_cast hpos.ne'
    unfold calculateAdaptiveThreshold
    rw [hsum, hsumSq, hcount, if_neg hpos.ne']
    congr 1
    set Q := specQualifying data (width * height)
    set m : ℝ := (Q.card : ℝ)
    set s : ℝ := ∑ i ∈ Q, data i
    have hvar : (∑ i ∈ Q, data i * data i) / m - s / m * (s / m)
        = (∑ i ∈ Q, (data i - specMean data (width * height)) ^ 2) / m := by
      have hexp : (∑ i ∈ Q, (data i - specMean data (width * height)) ^ 2)
          = (∑ i ∈ Q, data i * data i) - 2 * (s / m) * s + m * (s / m) ^ 2 := by
        have hmean : specMean data (width * height) = s / m := rfl
        rw [hmean]
        rw [Finset.sum_congr rfl fun i _ => sub_sq (data i) (s / m)]
        rw [Finset.sum_add_distrib, Finset.sum_sub_distrib]
        congr 1
        · congr 1
          · exact Finset.sum_congr rfl fun i _ => sq (data i) ▸ (sq (data i)).symm ▸ rfl
          · rw [← Finset.sum_mul, ← Finset.mul_sum]
            ring
        · rw [Finset.sum_const, nsmul_eq_mul]
      rw [hexp]
      field_simp
      ring
    rw [hvar]
    have hmean : specMean data (width * height) = s / m := rfl
    rw [specStdDev, hmean]
    ring
  · intro hempty
    have : (∑ i ∈ Finset.range (width * height), if 5 < data i then 1 else 0) = 0 := by
      rw [hcount, hempty, Finset.card_empty]
    unfold calculateAdaptiveThreshold
    rw [this]
    simp

/-- A concrete difference map for the C4 witness: entry 0 is 0 (below the
noise floor), entry 1 is 10. -/
noncomputable def wDiffData : ℕ → ℝ := fun i => (i : ℝ) * 10

/-- Witness for C4 at concrete inputs: on `wDiffData` over a 2 × 1 map the
qualifying set is nonempty and the formula applies; on the all-zero map no
entry qualifies and the configured minimum is returned. -/
theorem c4_witness :
    calculateAdaptiveThreshold wDiffData 2 1
      = max (CONFIG_brightnessThreshold : ℝ)
          (specMean wDiffData 2 + 1.5 * specStdDev wDiffData 2) ∧
    calculateAdaptiveThreshold (fun _ => 0) 2 1 = (CONFIG_brightnessThreshold : ℝ) := by
  constructor
  · apply (c4_adaptive_threshold_formula wDiffData 2 1).1
    apply Finset.Nonempty.ne_empty
    refine ⟨1, ?_⟩
    rw [specQualifying, Finset.mem_filter]
    constructor
    · simp
    · norm_num [wDiffData]
  · apply (c4_adaptive_threshold_formula (fun _ => 0) 2 1).2
    rw [specQualifying]
    apply Finset.filter_false_of_mem
    intro i _
    norm_num

/-! ### Bounding-box refinement (`refineBoundingBox`) -/

/-- A pixel bounding box as returned by `refineBoundingBox`. -/
structure BBox where
  minX : ℕ
  maxX : ℕ
  minY : ℕ
  maxY : ℕ
deriving DecidableEq, Repr

/-- The inclusive integer range `a .. b` (empty when `b < a`), i.e. the JS
loop `for (v = a; v <= b; v++)`. -/
def rangeClosed (a b : ℕ) : List ℕ := (List.range (b + 1 - a)).map (a + ·)

lemma mem_rangeClosed {a b v : ℕ} : v ∈ rangeClosed a b ↔ a ≤ v ∧ v ≤ b := by
  unfold rangeClosed
  simp only [List.mem_map, List.mem_range]
  constructor
  · rintro ⟨j, hj, rfl⟩
    omega
  · rintro ⟨h1, h2⟩
    exact ⟨v - a, by omega, by omega⟩

/-- One step of the refinement scan: if the difference value at the pixel
exceeds the edge threshold 20, pull the four running extremes over it. -/
noncomputable def refineStep (diffMap : ℕ → ℝ) (width : ℕ) (st : BBox) (p : ℕ × ℕ) : BBox :=
  if 20 < diffMap (p.1 * width + p.2) then
    ⟨min st.minX p.2, max st.maxX p.2, min st.minY p.1, max st.maxY p.1⟩
  else st

/-- The scan order of the two nested loops: `y` outer from
`searchMinY .. searchMaxY`, `x` inner from `searchMinX .. searchMaxX`. -/
def refineScan (width height minX minY maxX maxY : ℕ) : List (ℕ × ℕ) :=
  ((rangeClosed (minY - 5) (min (height - 1) (maxY + 5))).map fun y =>
    (rangeClosed (minX - 5) (min (width - 1) (maxX + 5))).map fun x => (y, x)).join

/-- Embedding of `refineBoundingBox(diffMap, width, height, minX, minY,
maxX, maxY)`: the running extremes start from the swapped input box
(`refinedMinX = maxX`, `refinedMaxX = minX`, ...) and are folded over the
padded search window. -/
noncomputable def refineBoundingBox (diffMap : ℕ → ℝ)
    (width height minX minY maxX maxY : ℕ) : BBox :=
  (refineScan width height minX minY maxX maxY).foldl
    (refineStep diffMap width) ⟨maxX, minX, maxY, minY⟩

lemma mem_refineScan {w h minX minY maxX maxY : ℕ} {p : ℕ × ℕ} :
    p ∈ refineScan w h minX minY maxX maxY ↔
      minY - 5 ≤ p.1 ∧ p.1 ≤ min (h - 1) (maxY + 5) ∧
      minX - 5 ≤ p.2 ∧ p.2 ≤ min (w - 1) (maxX + 5) := by
  unfold refineScan
  simp only [List.mem_join, List.mem_map]
  constructor
  · rintro ⟨l, ⟨y, hy, rfl⟩, hp⟩
    obtain ⟨x, hx, rfl⟩ := List.mem_map.mp hp
    have h1 := mem_rangeClosed.mp hy
    have h2 := mem_rangeClosed.mp hx
    exact ⟨h1.1, h1.2, h2.1, h2.2⟩
  · rintro ⟨h1, h2, h3, h4⟩
    refine ⟨_, ⟨p.1, mem_rangeClosed.mpr ⟨h1, h2⟩, rfl⟩, ?_⟩
    exact List.mem_map.mpr ⟨p.2, mem_rangeClosed.mpr ⟨h3, h4⟩, rfl⟩

lemma refine_foldl_minX (diffMap : ℕ → ℝ) (w : ℕ) (l : List (ℕ × ℕ)) (st : BBox) :
    (l.foldl (refineStep diffMap w) st).minX
      = l.foldl (fun s p => if 20 < diffMap (p.1 * w + p.2) then min s p.2 else s) st.minX := by
  induction l generalizing st with
  | nil => rfl
  | cons a t ih =>
      simp only [List.foldl_cons]
      rw [ih]
      unfold refineStep
      split <;> rfl

lemma refine_foldl_maxX (diffMap : ℕ → ℝ) (w : ℕ) (l : List (ℕ × ℕ)) (st : BBox) :
    (l.foldl (refineStep diffMap w) st).maxX
      = l.foldl (fun s p => if 20 < diffMap (p.1 * w + p.2) then max s p.2 else s) st.maxX := by
  induction l generalizing st with
  | nil => rfl
  | cons a t ih =>
      simp only [List.foldl_cons]
      rw [ih]
      unfold refineStep
      split <;> rfl

lemma refine_foldl_minY (diffMap : ℕ → ℝ) (w : ℕ) (l : List (ℕ × ℕ)) (st : BBox) :
    (l.foldl (refineStep diffMap w) st).minY
      = l.foldl (fun s p => if 20 < diffMap (p.1 * w + p.2) then min s p.1 else s) st.minY := by
  induction l generalizing st with
  | nil => rfl
  | cons a t ih =>
      simp only [List.foldl_cons]
      rw [ih]
      unfold refineStep
      split <;> rfl

lemma refine_foldl_maxY (diffMap : ℕ → ℝ) (w : ℕ) (l : List (ℕ × ℕ)) (st : BBox) :
    (l.foldl (refineStep diffMap w) st).maxY
      = l.foldl (fun s p => if 20 < diffMap (p.1 * w + p.2) then max s p.1 else s) st.maxY := by
  induction l generalizing st with
  | nil => rfl
  | cons a t ih =>
      simp only [List.foldl_cons]
      rw [ih]
      unfold refineStep
      split <;> rfl

lemma foldl_min_char {α : Type} (q : α → Prop) (f : α → ℕ) (l : List α) (s : ℕ) :
    (l.foldl (fun s a => if q a then min s (f a) else s) s) ≤ s ∧
    (∀ a ∈ l, q a → (l.foldl (fun s a => if q a then min s (f a) else s) s) ≤ f a) ∧
    ((l.foldl (fun s a => if q a then min s (f a) else s) s) = s ∨
      ∃ a ∈ l, q a ∧ (l.foldl (fun s a => if q a then min s (f a) else s) s) = f a) := by
  induction l generalizing s with
  | nil => exact ⟨le_refl s, by simp, Or.inl rfl⟩
  | cons a t ih =>
      simp only [List.foldl_cons]
      set s' := if q a then min s (f a) else s with hs'
      obtain ⟨ih1, ih2, ih3⟩ := ih s'
      have hs'le : s' ≤ s := by
        rw [hs']; split
        · exact min_le_left _ _
        · exact le_refl s
      refine ⟨ih1.trans hs'le, ?_, ?_⟩
      · intro b hb hq
        rcases List.mem_cons.mp hb with rfl | hbt
        · refine ih1.trans ?_
          rw [hs', if_pos hq]
          exact min_le_right _ _
        · exact ih2 b hbt hq
      · rcases ih3 with heq | ⟨b, hb, hq, heq⟩
        · by_cases hqa : q a
          · have hs'' : s' = min s (f a) := by rw [hs', if_pos hqa]
            rcases min_choice s (f a) with hmin | hmin
            · exact Or.inl (heq.trans (hs''.trans hmin))
            · exact Or.inr ⟨a, List.mem_cons_self a t, hqa, heq.trans (hs''.trans hmin)⟩
          · have hs'' : s' = s := by rw [hs', if_neg hqa]
            exact Or.inl (heq.trans hs'')
        · exact Or.inr ⟨b, List.mem_cons_of_mem a hb, hq, heq⟩

lemma foldl_max_char {α : Type} (q : α → Prop) (f : α → ℕ) (l : List α) (s : ℕ) :
    s ≤ (l.foldl (fun s a => if q a then max s (f a) else s) s) ∧
    (∀ a ∈ l, q a → f a ≤ (l.foldl (fun s a => if q a then max s (f a) else s) s)) ∧
    ((l.foldl (fun s a => if q a then max s (f a) else s) s) = s ∨
      ∃ a ∈ l, q a ∧ (l.foldl (fun s a => if q a then max s (f a) else s) s) = f a) := by
  induction l generalizing s with
  | nil => exact ⟨le_refl s, by simp, Or.inl rfl⟩
  | cons a t ih =>
      simp only [List.foldl_cons]
      set s' := if q a then max s (f a) else s with hs'
      obtain ⟨ih1, ih2, ih3⟩ := ih s'
      have hs'le : s ≤ s' := by
        rw [hs']; split
        · exact le_max_left _ _
        · exact le_refl s
      refine ⟨hs'le.trans ih1, ?_, ?_⟩
      · intro b hb hq
        rcases List.mem_cons.mp hb with rfl | hbt
        · refine le_trans ?_ ih1
          rw [hs', if_pos hq]
          exact le_max_right _ _
        · exact ih2 b hbt hq
      · rcases ih3 with heq | ⟨b, hb, hq, heq⟩
        · by_cases hqa : q a
          · have hs'' : s' = max s (f a) := by rw [hs', if_pos hqa]
            rcases max_choice s (f a) with hmax | hmax
            · exact Or.inl (heq.trans (hs''.trans hmax))
            · exact Or.inr ⟨a, List.mem_cons_self a t, hqa, heq.trans (hs''.trans hmax)⟩
          · have hs'' : s' = s := by rw [hs', if_neg hqa]
            exact Or.inl (heq.trans hs'')
        · exact Or.inr ⟨b, List.mem_cons_of_mem a hb, hq, heq⟩

/-! ### Claim C5 — refineBoundingBox pushes edges outward (corrected) -/

/-- Counterexample to C5 as stated: with an all-zero difference map (no
pixel exceeds the edge threshold) and input box `minX = 0, maxX = 1` in a
2 × 1 image, the "refined" box keeps its swapped initial extremes
(`refinedMinX = maxX = 1`), so it does not contain the input box
(`refinedMinX ≤ minX` fails). -/
theorem c5_counterexample :
    (refineBoundingBox (fun _ => (0 : ℝ)) 2 1 0 0 1 0).minX = 1 ∧
    ¬ (refineBoundingBox (fun _ => (0 : ℝ)) 2 1 0 0 1 0).minX ≤ 0 := by
  have h : (refineBoundingBox (fun _ => (0 : ℝ)) 2 1 0 0 1 0).minX = 1 := by
    unfold refineBoundingBox
    rw [refine_foldl_minX]
    have hc := foldl_min_char (fun p : ℕ × ℕ => (20 : ℝ) < 0)
      (fun p : ℕ × ℕ => p.2) (refineScan 2 1 0 0 1 0) 1
    rcases hc.2.2 with heq | ⟨a, _, hq, _⟩
    · exact heq
    · norm_num at hq
  exact ⟨h, by omega⟩

/-- C5 (amended): provided the difference value exceeds the edge threshold
20 at the two corner pixels `(minX, minY)` and `(maxX, maxY)` of the input
box (which holds for the blob bounding boxes `detectScreenArea` passes,
since blob pixels exceed the binary-mask threshold `≥ 40`), refinement
only pushes edges outward: the refined box contains the input box, each
edge moves outward by at most the padding 5 (and stays inside the image
on the high side), and an edge that moved landed on a pixel of the search
window whose difference value exceeds 20. -/
theorem c5_refine_outward_of_corners (diffMap : ℕ → ℝ)
    (width height minX minY maxX maxY : ℕ)
    (hx : minX ≤ maxX) (hy : minY ≤ maxY)
    (hxw : maxX ≤ width - 1) (hyh : maxY ≤ height - 1)
    (hc1 : 20 < diffMap (minY * width + minX))
    (hc2 : 20 < diffMap (maxY * width + maxX)) :
    ((refineBoundingBox diffMap width height minX minY maxX maxY).minX ≤ minX ∧
      maxX ≤ (refineBoundingBox diffMap width height minX minY maxX maxY).maxX ∧
      (refineBoundingBox diffMap width height minX minY maxX maxY).minY ≤ minY ∧
      maxY ≤ (refineBoundingBox diffMap width height minX minY maxX maxY).maxY) ∧
    (minX - 5 ≤ (refineBoundingBox diffMap width height minX minY maxX maxY).minX ∧
      (refineBoundingBox diffMap width height minX minY maxX maxY).maxX ≤ maxX + 5 ∧
      minY - 5 ≤ (refineBoundingBox diffMap width height minX minY maxX maxY).minY ∧
      (refineBoundingBox diffMap width height minX minY maxX maxY).maxY ≤ maxY + 5) ∧
    (((refineBoundingBox diffMap width height minX minY maxX maxY).minX < minX →
        ∃ p ∈ refineScan width height minX minY maxX maxY,
          20 < diffMap (p.1 * width + p.2) ∧
          (refineBoundingBox diffMap width height minX minY maxX maxY).minX = p.2) ∧
      (maxX < (refineBoundingBox diffMap width height minX minY maxX maxY).maxX →
        ∃ p ∈ refineScan width height minX minY maxX maxY,
          20 < diffMap (p.1 * width + p.2) ∧
          (refineBoundingBox diffMap width height minX minY maxX maxY).maxX = p.2) ∧
      ((refineBoundingBox diffMap width height minX minY maxX maxY).minY < minY →
        ∃ p ∈ refineScan width height minX minY maxX maxY,
          20 < diffMap (p.1 * width + p.2) ∧
          (refineBoundingBox diffMap width height minX minY maxX maxY).minY = p.1) ∧
      (maxY < (refineBoundingBox diffMap width height minX minY maxX maxY).maxY →
        ∃ p ∈ refineScan width height minX minY maxX maxY,
          20 < diffMap (p.1 * width + p.2) ∧
          (refineBoundingBox diffMap width height minX minY maxX maxY).maxY = p.1)) := by
  have hp1 : ((minY, minX) : ℕ × ℕ) ∈ refineScan width height minX minY maxX maxY := by
    rw [mem_refineScan]
    refine ⟨by omega, le_min (by omega) (by omega), by omega, le_min (by omega) (by omega)⟩
  have hp2 : ((maxY, maxX) : ℕ × ℕ) ∈ refineScan width height minX minY maxX maxY := by
    rw [mem_refineScan]
    refine ⟨by omega, le_min (by omega) (by omega), by omega, le_min (by omega) (by omega)⟩
  have eminX : (refineBoundingBox diffMap width height minX minY maxX maxY).minX
      = List.foldl (fun s p => if 20 < diffMap (p.1 * width + p.2) then min s p.2 else s)
          maxX (refineScan width height minX minY maxX maxY) :=
    refine_foldl_minX diffMap width
      (refineScan width height minX minY maxX maxY) ⟨maxX, minX, maxY, minY⟩
  have emaxX : (refineBoundingBox diffMap width height minX minY maxX maxY).maxX
      = List.foldl (fun s p => if 20 < diffMap (p.1 * width + p.2) then max s p.2 else s)
          minX (refineScan width height minX minY maxX maxY) :=
    refine_foldl_maxX diffMap width
      (refineScan width height minX minY maxX maxY) ⟨maxX, minX, maxY, minY⟩
  have eminY : (refineBoundingBox diffMap width height minX minY maxX maxY).minY
      = List.foldl (fun s p => if 20 < diffMap (p.1 * width + p.2) then min s p.1 else s)
          maxY (refineScan width height minX minY maxX maxY) :=
    refine_foldl_minY diffMap width
      (refineScan width height minX minY maxX maxY) ⟨maxX, minX, maxY, minY⟩
  have emaxY : (refineBoundingBox diffMap width height minX minY maxX maxY).maxY
      = List.foldl (fun s p => if 20 < diffMap (p.1 * width + p.2) then max s p.1 else s)
          minY (refineScan width height minX minY maxX maxY) :=
    refine_foldl_maxY diffMap width
      (refineScan width height minX minY maxX maxY) ⟨maxX, minX, maxY, minY⟩
  have chminX := foldl_min_char (fun p : ℕ × ℕ => 20 < diffMap (p.1 * width + p.2))
    (fun p : ℕ × ℕ => p.2) (refineScan width height minX minY maxX maxY) maxX
  have chmaxX := foldl_max_char (fun p : ℕ × ℕ => 20 < diffMap (p.1 * width + p.2))
    (fun p : ℕ × ℕ => p.2) (refineScan width height minX minY maxX maxY) minX
  have chminY := foldl_min_char (fun p : ℕ × ℕ => 20 < diffMap (p.1 * width + p.2))
    (fun p : ℕ × ℕ => p.1) (refineScan width height minX minY maxX maxY) maxY
  have chmaxY := foldl_max_char (fun p : ℕ × ℕ => 20 < diffMap (p.1 * width + p.2))
    (fun p : ℕ × ℕ => p.1) (refineScan width height minX minY maxX maxY) minY
  rw [eminX, emaxX, eminY, emaxY]
  refine ⟨⟨chminX.2.1 _ hp1 hc1, chmaxX.2.1 _ hp2 hc2,
    chminY.2.1 _ hp1 hc1, chmaxY.2.1 _ hp2 hc2⟩, ⟨?_, ?_, ?_, ?_⟩, ?_, ?_, ?_, ?_⟩
  · rcases chminX.2.2 with heq | ⟨p, hpmem, _, heq⟩
    · omega
    · have := (mem_refineScan.mp hpmem).2.2.1
      omega
  · rcases chmaxX.2.2 with heq | ⟨p, hpmem, _, heq⟩
    · omega
    · have := (mem_refineScan.mp hpmem).2.2.2
      have := min_le_right (width - 1) (maxX + 5)
      omega
  · rcases chminY.2.2 with heq | ⟨p, hpmem, _, heq⟩
    · omega
    · have := (mem_refineScan.mp hpmem).1
      omega
  · rcases chmaxY.2.2 with heq | ⟨p, hpmem, _, heq⟩
    · omega
    · have := (mem_refineScan.mp hpmem).2.1
      have := min_le_right (height - 1) (maxY + 5)
      omega
  · intro hlt
    rcases chminX.2.2 with heq | ⟨p, hpmem, hq, heq⟩
    · omega
    · exact ⟨p, hpmem, hq, heq⟩
  · intro hlt
    rcases chmaxX.2.2 with heq | ⟨p, hpmem, hq, heq⟩
    · omega
    · exact ⟨p, hpmem, hq, heq⟩
  · intro hlt
    rcases chminY.2.2 with heq | ⟨p, hpmem, hq, heq⟩
    · omega
    · exact ⟨p, hpmem, hq, heq⟩
  · intro hlt
    rcases chmaxY.2.2 with heq | ⟨p, hpmem, hq, heq⟩
    · omega
    · exact ⟨p, hpmem, hq, heq⟩

/-- A concrete difference map for the C5 witness: value 30 at index 0. -/
noncomputable def wDiff5 : ℕ → ℝ := fun i => if i = 0 then 30 else 0

/-- Witness for C5 (amended) at a concrete input: single-pixel box (0,0)
in a 2 × 1 image whose corner difference value 30 exceeds 20. -/
theorem c5_witness :
    (refineBoundingBox wDiff5 2 1 0 0 0 0).minX ≤ 0 ∧
    0 ≤ (refineBoundingBox wDiff5 2 1 0 0 0 0).maxX :=
  ⟨(c5_refine_outward_of_corners wDiff5 2 1 0 0 0 0 (le_refl 0) (le_refl 0)
      (by norm_num) (by norm_num) (by norm_num [wDiff5]) (by norm_num [wDiff5])).1.1,
    (c5_refine_outward_of_corners wDiff5 2 1 0 0 0 0 (le_refl 0) (le_refl 0)
      (by norm_num) (by norm_num) (by norm_num [wDiff5]) (by norm_num [wDiff5])).1.2.1⟩

/-! ### Area color sampling (`sampleAreaColor`) -/

/-- `Math.round` on a real value (non-negative in all uses here):
`⌊x + 1/2⌋`. -/
noncomputable def jsRoundR (x : ℝ) : ℤ := ⌊x + 1 / 2⌋

/-- A screen record as consumed by the sampler: a detected normalized
center position and an optional normalized area rectangle. -/
structure ScreenRec where
  position : ℚ × ℚ
  area : Option Rect

/-- `areaX = Math.floor(normalized.x * canvasSize)`. -/
def sampleAreaX (area : Rect) : ℤ := ⌊(clampRect area).x * CONFIG_canvasSize⌋

/-- `areaY = Math.floor(normalized.y * canvasSize)`. -/
def sampleAreaY (area : Rect) : ℤ := ⌊(clampRect area).y * CONFIG_canvasSize⌋

/-- `areaW = Math.max(1, Math.floor(normalized.width * canvasSize))`. -/
def sampleAreaW (area : Rect) : ℕ :=
  max 1 (⌊(clampRect area).width * CONFIG_canvasSize⌋.toNat)

/-- `areaH = Math.max(1, Math.floor(normalized.height * canvasSize))`. -/
def sampleAreaH (area : Rect) : ℕ :=
  max 1 (⌊(clampRect area).height * CONFIG_canvasSize⌋.toNat)

/-- The radial Gaussian weight of sampled pixel `(x, y)` inside an
`aW × aH` sampling window: `exp(−dist²)` with
`dist = √((x−cx)²/(aW/2)² + ...)` as computed by the source. -/
noncomputable def sampleWeight (aW aH x y : ℕ) : ℝ :=
  Real.exp (-(Real.sqrt
      ((((x : ℝ) - aW / 2) / (aW / 2)) * (((x : ℝ) - aW / 2) / (aW / 2))
        + (((y : ℝ) - aH / 2) / (aH / 2)) * (((y : ℝ) - aH / 2) / (aH / 2)))
    * Real.sqrt
      ((((x : ℝ) - aW / 2) / (aW / 2)) * (((x : ℝ) - aW / 2) / (aW / 2))
        + (((y : ℝ) - aH / 2) / (aH / 2)) * (((y : ℝ) - aH / 2) / (aH / 2)))))

/-- Embedding of `sampleAreaColor(screen)` against a virtual canvas
`canvas : (x, y) ↦ (r, g, b)`: with an area, the Gaussian-weighted
average of the pixels of the denormalized sampling rectangle, rounded;
without one, the single pixel under the center point. -/
noncomputable def sampleAreaColor (canvas : ℤ → ℤ → ℕ × ℕ × ℕ) (screen : ScreenRec) :
    ℤ × ℤ × ℤ :=
  match screen.area with
  | some area =>
      let aX := sampleAreaX area
      let aY := sampleAreaY area
      let aW := sampleAreaW area
      let aH := sampleAreaH area
      let totalR : ℝ := ∑ y ∈ Finset.range aH, ∑ x ∈ Finset.range aW,
        ((canvas (aX + x) (aY + y)).1 : ℝ) * sampleWeight aW aH x y
      let totalG : ℝ := ∑ y ∈ Finset.range aH, ∑ x ∈ Finset.range aW,
        ((canvas (aX + x) (aY + y)).2.1 : ℝ) * sampleWeight aW aH x y
      let totalB : ℝ := ∑ y ∈ Finset.range aH, ∑ x ∈ Finset.range aW,
        ((canvas (aX + x) (aY + y)).2.2 : ℝ) * sampleWeight aW aH x y
      let totalWeight : ℝ := ∑ y ∈ Finset.range aH, ∑ x ∈ Finset.range aW,
        sampleWeight aW aH x y
      (jsRoundR (totalR / totalWeight), jsRoundR (totalG / totalWeight),
        jsRoundR (totalB / totalWeight))
  | none =>
      let pixelX : ℤ := ⌊screen.position.1 * CONFIG_canvasSize⌋
      let pixelY : ℤ := ⌊screen.position.2 * CONFIG_canvasSize⌋
      (((canvas pixelX pixelY).1 : ℤ), ((canvas pixelX pixelY).2.1 : ℤ),
        ((canvas pixelX pixelY).2.2 : ℤ))

lemma sampleWeight_pos (aW aH x y : ℕ) : 0 < sampleWeight aW aH x y :=
  Real.exp_pos _

lemma totalWeight_pos (aW aH : ℕ) (hW : 0 < aW) (hH : 0 < aH) :
    0 < ∑ y ∈ Finset.range aH, ∑ x ∈ Finset.range aW, sampleWeight aW aH x y := by
  apply Finset.sum_pos
  · intro y _
    apply Finset.sum_pos
    · intro x _
      exact sampleWeight_pos aW aH x y
    · exact Finset.nonempty_range_iff.mpr hW.ne'
  · exact Finset.nonempty_range_iff.mpr hH.ne'

lemma jsRoundR_natCast (n : ℕ) : jsRoundR (n : ℝ) = n := by
  unfold jsRoundR
  rw [Int.floor_eq_iff]
  constructor <;> push_cast <;> linarith

/-! ### Claim C8 — sampling a uniformly colored area returns that color -/

/-- C8: if every canvas pixel inside the denormalized sampling rectangle
of a screen's area has the constant color `c`, then `sampleAreaColor`
returns exactly `c`: the Gaussian-weighted average of a constant is that
constant and rounding an integer is the identity. -/
theorem c8_sampleAreaColor_constant (canvas : ℤ → ℤ → ℕ × ℕ × ℕ)
    (screen : ScreenRec) (area : Rect) (c : ℕ × ℕ × ℕ)
    (harea : screen.area = some area)
    (hconst : ∀ x y : ℤ, 0 ≤ x → x < sampleAreaW area → 0 ≤ y → y < sampleAreaH area →
      canvas (sampleAreaX area + x) (sampleAreaY area + y) = c) :
    sampleAreaColor canvas screen = ((c.1 : ℤ), (c.2.1 : ℤ), (c.2.2 : ℤ)) := by
  have hW : 0 < sampleAreaW area := lt_of_lt_of_le Nat.one_pos (le_max_left _ _)
  have hH : 0 < sampleAreaH area := lt_of_lt_of_le Nat.one_pos (le_max_left _ _)
  have hWpos := totalWeight_pos (sampleAreaW area) (sampleAreaH area) hW hH
  have hread : ∀ x ∈ Finset.range (sampleAreaW area), ∀ y ∈ Finset.range (sampleAreaH area),
      canvas (sampleAreaX area + x) (sampleAreaY area + y) = c := by
    intro x hx y hy
    exact hconst x y (Int.ofNat_nonneg x) (by exact_mod_cast Finset.mem_range.mp hx)
      (Int.ofNat_nonneg y) (by exact_mod_cast Finset.mem_range.mp hy)
  unfold sampleAreaColor
  rw [harea]
  simp only
  have hfactor : ∀ proj : ℕ × ℕ × ℕ → ℕ,
      (∑ y ∈ Finset.range (sampleAreaH area), ∑ x ∈ Finset.range (sampleAreaW area),
        ((proj (canvas (sampleAreaX area + x) (sampleAreaY area + y)) : ℝ)
          * sampleWeight (sampleAreaW area) (sampleAreaH area) x y))
      = (proj c : ℝ) * ∑ y ∈ Finset.range (sampleAreaH area),
          ∑ x ∈ Finset.range (sampleAreaW area),
            sampleWeight (sampleAreaW area) (sampleAreaH area) x y := by
    intro proj
    rw [Finset.mul_sum]
    apply Finset.sum_congr rfl
    intro y hy
    rw [Finset.mul_sum]
    apply Finset.sum_congr rfl
    intro x hx
    rw [hread x hx y hy]
  rw [hfactor (fun v => v.1), hfactor (fun v => v.2.1), hfactor (fun v => v.2.2)]
  rw [mul_div_assoc, mul_div_assoc, mul_div_assoc, div_self hWpos.ne']
  rw [mul_one, mul_one, mul_one]
  rw [jsRoundR_natCast, jsRoundR_natCast, jsRoundR_natCast]

/-- A concrete uniformly colored canvas for the C8 witness. -/
def wCanvas : ℤ → ℤ → ℕ × ℕ × ℕ := fun _ _ => (7, 8, 9)

/-- A concrete screen record with an area for the C8 witness. -/
def wScreen : ScreenRec := ⟨(1 / 2, 1 / 2), some ⟨1 / 2, 1 / 2, 1 / 10, 1 / 10⟩⟩

/-- Witness for C8: sampling the uniform (7, 8, 9) canvas over the
concrete screen area returns exactly (7, 8, 9). -/
theorem c8_witness : sampleAreaColor wCanvas wScreen = (7, 8, 9) :=
  c8_sampleAreaColor_constant wCanvas wScreen ⟨1 / 2, 1 / 2, 1 / 10, 1 / 10⟩ (7, 8, 9)
    rfl (fun _ _ _ _ _ _ => rfl)

/-! ### Difference map and Gaussian blur -/

/-- Perceptual luminance `0.299·R + 0.587·G + 0.114·B` of the pixel at
flat pixel index `p` (byte index `4·p`). -/
noncomputable def luminance (f : Frame) (p : ℕ) : ℝ :=
  (f.data (p * 4) : ℝ) * 0.299 + (f.data (p * 4 + 1) : ℝ) * 0.587
    + (f.data (p * 4 + 2) : ℝ) * 0.114

/-- The luminance difference map `max(0, activeLum − baseLum)` of
`detectScreenArea` step 1. -/
noncomputable def diffMapOf (base active : Frame) : ℕ → ℝ := fun p =>
  max 0 (luminance active p - luminance base p)

/-- `createGaussianKernel`: raw weight `exp(−k²/(2σ²))` with `σ = r/2`. -/
noncomputable def gaussKernelRaw (radius : ℕ) (k : ℤ) : ℝ :=
  Real.exp (-((k : ℝ) * k) / (2 * ((radius : ℝ) / 2) * ((radius : ℝ) / 2)))

/-- The raw kernel mass used for normalization. -/
noncomputable def gaussKernelSum (radius : ℕ) : ℝ :=
  ∑ j ∈ Finset.range (2 * radius + 1), gaussKernelRaw radius ((j : ℤ) - radius)

/-- The normalized kernel entry at offset `k ∈ [−radius, radius]`. -/
noncomputable def gaussKernel (radius : ℕ) (k : ℤ) : ℝ :=
  gaussKernelRaw radius k / gaussKernelSum radius

/-- The per-pixel `weightSum` of the blur loops: all kernel entries are
accumulated regardless of edge clamping. -/
noncomputable def blurWeightSum (radius : ℕ) : ℝ :=
  ∑ j ∈ Finset.range (2 * radius + 1), gaussKernel radius ((j : ℤ) - radius)

/-- Horizontal pass of `gaussianBlur`: sample offsets are edge-clamped to
`[0, width−1]`. -/
noncomputable def gaussianBlurH (data : ℕ → ℝ) (width height radius : ℕ) : ℕ → ℝ :=
  fun idx =>
    if idx < width * height then
      (∑ j ∈ Finset.range (2 * radius + 1),
          data ((idx / width) * width
              + (clampIdx (((idx % width : ℕ) : ℤ) + ((j : ℤ) - radius))
                  ((width : ℤ) - 1)).toNat)
            * gaussKernel radius ((j : ℤ) - radius))
        / blurWeightSum radius
    else 0

/-- Vertical pass of `gaussianBlur`. -/
noncomputable def gaussianBlurV (data : ℕ → ℝ) (width height radius : ℕ) : ℕ → ℝ :=
  fun idx =>
    if idx < width * height then
      (∑ j ∈ Finset.range (2 * radius + 1),
          data ((clampIdx (((idx / width : ℕ) : ℤ) + ((j : ℤ) - radius))
                  ((height : ℤ) - 1)).toNat * width + idx % width)
            * gaussKernel radius ((j : ℤ) - radius))
        / blurWeightSum radius
    else 0

/-- `gaussianBlur(data, width, height, radius)`: separable blur, the
horizontal pass feeding the vertical pass. -/
noncomputable def gaussianBlur (data : ℕ → ℝ) (width height radius : ℕ) : ℕ → ℝ :=
  gaussianBlurV (gaussianBlurH data width height radius) width height radius

/-! ### The detection pipeline stages of `detectScreenArea` -/

/-- Step 2 of `detectScreenArea`: the blurred difference map. -/
noncomputable def blurredDiffOf (base active : Frame) : ℕ → ℝ :=
  gaussianBlur (diffMapOf base active) base.width base.height CONFIG_gaussianBlurRadius

/-- Step 3: the adaptive threshold of the blurred difference map. -/
noncomputable def thresholdOf (base active : Frame) : ℝ :=
  calculateAdaptiveThreshold (blurredDiffOf base active) base.width base.height

/-- Step 4: the binary mask, `255` where the blurred difference strictly
exceeds the threshold. -/
noncomputable def binaryMaskOf (base active : Frame) : ℕ → ℕ := fun i =>
  if thresholdOf base active < blurredDiffOf base active i then 255 else 0

/-- Step 5: morphological closing — dilate then erode with the configured
kernel. -/
noncomputable def processedMaskOf (base active : Frame) : ℕ → ℕ :=
  erode (dilate (binaryMaskOf base active) base.width base.height CONFIG_morphologyKernel)
    base.width base.height CONFIG_morphologyKernel

/-! ### Flood fill and largest blob -/

/-- The flat index `y·width + x` of cell `(x, y)`. -/
def cellIdx (width : ℕ) (p : ℕ × ℕ) : ℕ := p.2 * width + p.1

/-- The in-bounds 4-neighbors of a cell, in the source's direction order
`(−1,0), (1,0), (0,−1), (0,1)`. -/
def neighbors4 (width height : ℕ) (p : ℕ × ℕ) : List (ℕ × ℕ) :=
  ([(-1, 0), (1, 0), (0, -1), (0, 1)] : List (ℤ × ℤ)).filterMap fun d =>
    if 0 ≤ (p.1 : ℤ) + d.1 ∧ (p.1 : ℤ) + d.1 < width
        ∧ 0 ≤ (p.2 : ℤ) + d.2 ∧ (p.2 : ℤ) + d.2 < height then
      some (((p.1 : ℤ) + d.1).toNat, ((p.2 : ℤ) + d.2).toNat)
    else none

/-- The inner conditional of the BFS loop: push an in-bounds neighbor on
the queue and mark it visited iff it is lit and not yet visited. -/
def pushNeighbor (mask : ℕ → ℕ) (width : ℕ)
    (st : List (ℕ × ℕ) × (ℕ → Bool)) (q : ℕ × ℕ) :
    List (ℕ × ℕ) × (ℕ → Bool) :=
  if mask (cellIdx width q) = 255 ∧ st.2 (cellIdx width q) = false then
    (st.1 ++ [q], fun j => if j = cellIdx width q then true else st.2 j)
  else st

/-- One BFS round of `floodFill`: pop the queue head, append it to
`pixels`, and push each in-bounds, lit, unvisited neighbor (marking it
visited as it is enqueued). Fuel-indexed; one unit per loop iteration. -/
def floodFillGo (mask : ℕ → ℕ) (width height : ℕ) :
    ℕ → List (ℕ × ℕ) → (ℕ → Bool) → List (ℕ × ℕ) →
      List (ℕ × ℕ) × (ℕ → Bool)
  | 0, _, visited, pixels => (pixels, visited)
  | _ + 1, [], visited, pixels => (pixels, visited)
  | fuel + 1, p :: rest, visited, pixels =>
      let step := (neighbors4 width height p).foldl (pushNeighbor mask width)
        (rest, visited)
      floodFillGo mask width height fuel step.1 step.2 (pixels ++ [p])

/-- Embedding of `floodFill(mask, visited, width, height, startX,
startY)`: seeds the queue with the start cell (marked visited) and runs
the BFS loop; returns the collected pixels and the updated visited map.
The fuel `width·height + 1` dominates the loop's iteration count (each
iteration pops one cell, and every enqueued cell was freshly marked in
the `width·height`-cell visited map). -/
def floodFill (mask : ℕ → ℕ) (width height startX startY : ℕ) (visited : ℕ → Bool) :
    List (ℕ × ℕ) × (ℕ → Bool) :=
  floodFillGo mask width height (width * height + 1) [(startX, startY)]
    (fun j => if j = startY * width + startX then true else visited j) []

/-- A connected blob: the pixel list collected by one flood fill. -/
structure Blob where
  pixels : List (ℕ × ℕ)
deriving DecidableEq, Repr

/-- The scan order of `findLargestBlob`: `y` outer, `x` inner. -/
def cellList (width height : ℕ) : List (ℕ × ℕ) :=
  ((List.range height).map fun y => (List.range width).map fun x => (x, y)).join

/-- One cell of the `findLargestBlob` scan: on a lit, unvisited cell,
flood-fill its blob from there (threading the shared visited map) and
keep it iff it is strictly larger than the best so far. -/
def scanStep (mask : ℕ → ℕ) (width height : ℕ)
    (st : (ℕ → Bool) × Option (List (ℕ × ℕ)) × ℕ) (p : ℕ × ℕ) :
    (ℕ → Bool) × Option (List (ℕ × ℕ)) × ℕ :=
  if mask (cellIdx width p) = 255 ∧ st.1 (cellIdx width p) = false then
    let ff := floodFill mask width height p.1 p.2 st.1
    if st.2.2 < ff.1.length then (ff.2, some ff.1, ff.1.length)
    else (ff.2, st.2.1, st.2.2)
  else st

/-- Embedding of `findLargestBlob(mask, width, height)`: scan all cells;
on each lit, unvisited cell flood-fill its component (sharing the visited
map across calls) and keep the first blob of maximal pixel count. -/
def findLargestBlob (mask : ℕ → ℕ) (width height : ℕ) : Option Blob :=
  ((cellList width height).foldl (scanStep mask width height)
    ((fun _ => false), none, 0)).2.1.map fun l => ⟨l⟩

/-! ### `normalizePointToSquare` and `detectScreenArea` -/

/-- Embedding of `normalizePointToSquare(x, y, width, height)` (real
valued: it is applied to the weighted centroid). -/
noncomputable def normalizePointToSquare (x y : ℝ) (width height : ℕ) : ℝ × ℝ :=
  if height ≤ width then
    (x / width, (y / height) * ((height : ℝ) / width) + (1 - (height : ℝ) / width) / 2)
  else
    ((x / width) * ((width : ℝ) / height) + (1 - (width : ℝ) / height) / 2, y / height)

/-- A `ScreenDetection` result: normalized center, clamped normalized
area, and the blob's pixel count. -/
structure Detection where
  center : ℝ × ℝ
  area : Rect
  pixelCount : ℕ

/-- Embedding of `detectScreenArea(baseFrame, activeFrame)` steps 6-8:
largest blob of the processed mask, minimum-size gate, bounding box with
weighted centroid, gradient refinement, and normalization + clamping. -/
noncomputable def detectScreenArea (base active : Frame) : Option Detection :=
  let width := base.width
  let height := base.height
  let blurred := blurredDiffOf base active
  match findLargestBlob (processedMaskOf base active) width height with
  | none => none
  | some blob =>
      if blob.pixels.length < CONFIG_minBlobSize then none
      else
        let minX := blob.pixels.foldl (fun m p => min m p.1) width
        let maxX := blob.pixels.foldl (fun m p => max m p.1) 0
        let minY := blob.pixels.foldl (fun m p => min m p.2) height
        let maxY := blob.pixels.foldl (fun m p => max m p.2) 0
        let totalX : ℝ :=
          (blob.pixels.map fun p => (p.1 : ℝ) * blurred (cellIdx width p)).sum
        let totalY : ℝ :=
          (blob.pixels.map fun p => (p.2 : ℝ) * blurred (cellIdx width p)).sum
        let totalWeight : ℝ := (blob.pixels.map fun p => blurred (cellIdx width p)).sum
        let refined := refineBoundingBox blurred width height minX minY maxX maxY
        let centerX : ℝ :=
          if 0 < totalWeight then totalX / totalWeight else ((minX : ℝ) + maxX) / 2
        let centerY : ℝ :=
          if 0 < totalWeight then totalY / totalWeight else ((minY : ℝ) + maxY) / 2
        let normalizedArea := clampRect (normalizeRectToSquare
          ⟨(refined.minX : ℚ), (refined.minY : ℚ),
            (refined.maxX : ℚ) - (refined.minX : ℚ),
            (refined.maxY : ℚ) - (refined.minY : ℚ)⟩ (width : ℚ) (height : ℚ))
        some
          { center := normalizePointToSquare centerX centerY width height
            area := normalizedArea
            pixelCount := blob.pixels.length }

/-! ### Connected components (specification side, for claim C3) -/

/-- A cell is lit: in bounds and with mask value 255. -/
def maskLit (mask : ℕ → ℕ) (width height : ℕ) (p : ℕ × ℕ) : Prop :=
  p.1 < width ∧ p.2 < height ∧ mask (cellIdx width p) = 255

/-- 4-adjacency between two lit cells. -/
def adjacent (mask : ℕ → ℕ) (width height : ℕ) (p q : ℕ × ℕ) : Prop :=
  maskLit mask width height p ∧ maskLit mask width height q ∧
  ((p.1 = q.1 ∧ (p.2 + 1 = q.2 ∨ q.2 + 1 = p.2)) ∨
    (p.2 = q.2 ∧ (p.1 + 1 = q.1 ∨ q.1 + 1 = p.1)))

/-- Connectivity: reflexive-transitive closure of 4-adjacency. -/
def connTo (mask : ℕ → ℕ) (width height : ℕ) (p q : ℕ × ℕ) : Prop :=
  Relation.ReflTransGen (adjacent mask width height) p q

/-- The 4-connected component of a seed cell, as a finite set of grid
cells. -/
noncomputable def component (mask : ℕ → ℕ) (width height : ℕ) (p : ℕ × ℕ) :
    Finset (ℕ × ℕ) :=
  ((Finset.range width) ×ˢ (Finset.range height)).filter (connTo mask width height p)

/-- The pixel count of the largest 4-connected component of lit cells
(0 when no cell is lit). -/
noncomputable def largestCompSize (mask : ℕ → ℕ) (width height : ℕ) : ℕ :=
  (((Finset.range width) ×ˢ (Finset.range height)).filter (maskLit mask width height)).sup
    fun p => (component mask width height p).card

lemma adjacent_symm {mask : ℕ → ℕ} {w h : ℕ} {p q : ℕ × ℕ}
    (hpq : adjacent mask w h p q) : adjacent mask w h q p := by
  obtain ⟨hp, hq, hgeo⟩ := hpq
  exact ⟨hq, hp, by tauto⟩

lemma connTo_symm {mask : ℕ → ℕ} {w h : ℕ} {p q : ℕ × ℕ}
    (hpq : connTo mask w h p q) : connTo mask w h q p := by
  induction hpq with
  | refl => exact Relation.ReflTransGen.refl
  | tail _ hstep ih => exact Relation.ReflTransGen.head (adjacent_symm hstep) ih

lemma connTo_lit {mask : ℕ → ℕ} {w h : ℕ} {p q : ℕ × ℕ}
    (hp : maskLit mask w h p) (hpq : connTo mask w h p q) : maskLit mask w h q := by
  induction hpq with
  | refl => exact hp
  | tail _ hstep _ => exact hstep.2.1

lemma mem_component {mask : ℕ → ℕ} {w h : ℕ} {p q : ℕ × ℕ} :
    q ∈ component mask w h p ↔ q.1 < w ∧ q.2 < h ∧ connTo mask w h p q := by
  unfold component
  rw [Finset.mem_filter, Finset.mem_product, Finset.mem_range, Finset.mem_range]
  tauto

lemma self_mem_component {mask : ℕ → ℕ} {w h : ℕ} {p : ℕ × ℕ}
    (hp : maskLit mask w h p) : p ∈ component mask w h p :=
  mem_component.mpr ⟨hp.1, hp.2.1, Relation.ReflTransGen.refl⟩

lemma component_eq_of_connTo {mask : ℕ → ℕ} {w h : ℕ} {p q : ℕ × ℕ}
    (hpq : connTo mask w h p q) :
    component mask w h q = component mask w h p := by
  ext r
  rw [mem_component, mem_component]
  constructor
  · rintro ⟨h1, h2, hqr⟩
    exact ⟨h1, h2, hpq.trans hqr⟩
  · rintro ⟨h1, h2, hpr⟩
    exact ⟨h1, h2, (connTo_symm hpq).trans hpr⟩

lemma cellIdx_inj {w : ℕ} {p q : ℕ × ℕ} (hp : p.1 < w) (hq : q.1 < w)
    (hidx : cellIdx w p = cellIdx w q) : p = q := by
  unfold cellIdx at hidx
  have h2 : p.2 = q.2 := by
    by_contra hne
    rcases Nat.lt_or_ge p.2 q.2 with hlt | hge
    · have e2 : (p.2 + 1) * w ≤ q.2 * w := Nat.mul_le_mul_right w hlt
      have e1 : (p.2 + 1) * w = p.2 * w + w := by ring
      linarith
    · have hgt : q.2 < p.2 := by omega
      have e2 : (q.2 + 1) * w ≤ p.2 * w := Nat.mul_le_mul_right w hgt
      have e1 : (q.2 + 1) * w = q.2 * w + w := by ring
      linarith
  have h1 : p.1 = q.1 := by
    rw [h2] at hidx
    exact Nat.add_left_cancel hidx
  exact Prod.ext h1 h2

lemma mem_neighbors4 {w h : ℕ} {p q : ℕ × ℕ} :
    q ∈ neighbors4 w h p ↔
      q.1 < w ∧ q.2 < h ∧
      ((p.1 = q.1 ∧ (p.2 + 1 = q.2 ∨ q.2 + 1 = p.2)) ∨
        (p.2 = q.2 ∧ (p.1 + 1 = q.1 ∨ q.1 + 1 = p.1))) := by
  obtain ⟨qx, qy⟩ := q
  unfold neighbors4
  rw [List.mem_filterMap]
  constructor
  · rintro ⟨d, hd, hq⟩
    simp only [List.mem_cons, List.not_mem_nil, or_false] at hd
    rcases hd with rfl | rfl | rfl | rfl <;>
      ( split at hq
        · rw [Option.some.injEq, Prod.mk.injEq] at hq
          obtain ⟨hx, hy⟩ := hq
          dsimp only at *
          refine ⟨by omega, by omega, by omega⟩
        · cases hq )
  · rintro ⟨h1, h2, hgeo⟩
    dsimp only at *
    rcases hgeo with ⟨hx, hy | hy⟩ | ⟨hy, hx | hx⟩
    · refine ⟨(0, 1), by simp, ?_⟩
      dsimp only
      rw [if_pos (by omega)]
      rw [Option.some.injEq, Prod.mk.injEq]
      constructor <;> omega
    · refine ⟨(0, -1), by simp, ?_⟩
      dsimp only
      rw [if_pos (by omega)]
      rw [Option.some.injEq, Prod.mk.injEq]
      constructor <;> omega
    · refine ⟨(1, 0), by simp, ?_⟩
      dsimp only
      rw [if_pos (by omega)]
      rw [Option.some.injEq, Prod.mk.injEq]
      constructor <;> omega
    · refine ⟨(-1, 0), by simp, ?_⟩
      dsimp only
      rw [if_pos (by omega)]
      rw [Option.some.injEq, Prod.mk.injEq]
      constructor <;> omega

lemma pushNeighbor_foldl_char (mask : ℕ → ℕ) (w : ℕ) (ns : List (ℕ × ℕ))
    (st : List (ℕ × ℕ) × (ℕ → Bool)) :
    ∃ add : List (ℕ × ℕ),
      (ns.foldl (pushNeighbor mask w) st).1 = st.1 ++ add ∧
      add.Nodup ∧
      (∀ q ∈ add, q ∈ ns ∧ mask (cellIdx w q) = 255 ∧ st.2 (cellIdx w q) = false) ∧
      (∀ j, (ns.foldl (pushNeighbor mask w) st).2 j = true ↔
        (st.2 j = true ∨ ∃ q ∈ add, cellIdx w q = j)) ∧
      (∀ q ∈ ns, mask (cellIdx w q) = 255 →
        (ns.foldl (pushNeighbor mask w) st).2 (cellIdx w q) = true) := by
  induction ns generalizing st with
  | nil =>
      refine ⟨[], by simp, List.nodup_nil, by simp, by simp, by simp⟩
  | cons a t ih =>
      simp only [List.foldl_cons]
      by_cases hpush : mask (cellIdx w a) = 255 ∧ st.2 (cellIdx w a) = false
      · rw [show pushNeighbor mask w st a
            = (st.1 ++ [a], fun j => if j = cellIdx w a then true else st.2 j) from by
          unfold pushNeighbor; rw [if_pos hpush]]
        obtain ⟨add, hA, hB, hC, hD, hE⟩ :=
          ih (st.1 ++ [a], fun j => if j = cellIdx w a then true else st.2 j)
        dsimp only at hA hC hD
        refine ⟨a :: add, ?_, ?_, ?_, ?_, ?_⟩
        · rw [hA, List.append_assoc]
          rfl
        · rw [List.nodup_cons]
          refine ⟨?_, hB⟩
          intro hmem
          have hq := (hC a hmem).2.2
          rw [if_pos rfl] at hq
          cases hq
        · intro q hq
          rcases List.mem_cons.mp hq with rfl | hq'
          · exact ⟨List.mem_cons_self _ _, hpush.1, hpush.2⟩
          · obtain ⟨hqt, hqm, hqv⟩ := hC q hq'
            refine ⟨List.mem_cons_of_mem a hqt, hqm, ?_⟩
            by_cases hje : cellIdx w q = cellIdx w a
            · rw [if_pos hje] at hqv
              cases hqv
            · rw [if_neg hje] at hqv
              exact hqv
        · intro j
          rw [hD j]
          constructor
          · rintro (hv | ⟨q, hq, rfl⟩)
            · by_cases hje : j = cellIdx w a
              · exact Or.inr ⟨a, List.mem_cons_self _ _, hje.symm⟩
              · rw [if_neg hje] at hv
                exact Or.inl hv
            · exact Or.inr ⟨q, List.mem_cons_of_mem a hq, rfl⟩
          · rintro (hv | ⟨q, hq, rfl⟩)
            · left
              by_cases hje : j = cellIdx w a
              · rw [if_pos hje]
              · rw [if_neg hje]
                exact hv
            · rcases List.mem_cons.mp hq with rfl | hq'
              · exact Or.inl (by rw [if_pos rfl])
              · exact Or.inr ⟨q, hq', rfl⟩
        · intro q hq hqm
          rcases List.mem_cons.mp hq with rfl | hq'
          · rw [hD (cellIdx w q)]
            exact Or.inl (by rw [if_pos rfl])
          · exact hE q hq' hqm
      · rw [show pushNeighbor mask w st a = st from by
          unfold pushNeighbor; rw [if_neg hpush]]
        obtain ⟨add, hA, hB, hC, hD, hE⟩ := ih st
        refine ⟨add, hA, hB, ?_, hD, ?_⟩
        · intro q hq
          obtain ⟨hqt, hqm, hqv⟩ := hC q hq
          exact ⟨List.mem_cons_of_mem a hqt, hqm, hqv⟩
        · intro q hq hqm
          rcases List.mem_cons.mp hq with rfl | hq'
          · rw [hD (cellIdx w q)]
            left
            cases hb : st.2 (cellIdx w q) with
            | false => exact absurd ⟨hqm, hb⟩ hpush
            | true => rfl
          · exact hE q hq' hqm

/-- The number of grid cells not yet marked in a visited map: the BFS
loop's termination measure together with the queue length. -/
noncomputable def unvisitedCount (w h : ℕ) (v : ℕ → Bool) : ℕ :=
  (((Finset.range w) ×ˢ (Finset.range h)).filter fun c => v (cellIdx w c) = false).card

lemma unvisitedCount_after (w h : ℕ) (V V' : ℕ → Bool) (add : List (ℕ × ℕ))
    (hgrid : ∀ q ∈ add, q.1 < w ∧ q.2 < h)
    (hfresh : ∀ q ∈ add, V (cellIdx w q) = false)
    (hnd : add.Nodup)
    (hchar : ∀ j, V' j = true ↔ (V j = true ∨ ∃ q ∈ add, cellIdx w q = j)) :
    unvisitedCount w h V' + add.length = unvisitedCount w h V := by
  unfold unvisitedCount
  have hsub : add.toFinset ⊆
      ((Finset.range w) ×ˢ (Finset.range h)).filter (fun c => V (cellIdx w c) = false) := by
    intro q hq
    rw [List.mem_toFinset] at hq
    rw [Finset.mem_filter, Finset.mem_product, Finset.mem_range, Finset.mem_range]
    exact ⟨⟨(hgrid q hq).1, (hgrid q hq).2⟩, hfresh q hq⟩
  have hset : ((Finset.range w) ×ˢ (Finset.range h)).filter (fun c => V' (cellIdx w c) = false)
      = (((Finset.range w) ×ˢ (Finset.range h)).filter
          (fun c => V (cellIdx w c) = false)) \ add.toFinset := by
    ext c
    rw [Finset.mem_sdiff, Finset.mem_filter, Finset.mem_filter, List.mem_toFinset]
    constructor
    · rintro ⟨hcg, hcv⟩
      have hnt : ¬ (V' (cellIdx w c) = true) := by rw [hcv]; simp
      rw [hchar] at hnt
      push_neg at hnt
      obtain ⟨h1, h2⟩ := hnt
      have hVf : V (cellIdx w c) = false := by
        cases hb : V (cellIdx w c) with
        | false => rfl
        | true => exact absurd hb h1
      refine ⟨⟨hcg, hVf⟩, fun hcin => ?_⟩
      exact h2 c hcin rfl
    · rintro ⟨⟨hcg, hcv⟩, hcin⟩
      refine ⟨hcg, ?_⟩
      cases hb : V' (cellIdx w c) with
      | false => rfl
      | true =>
          rcases (hchar (cellIdx w c)).mp hb with hV | ⟨q, hq, hidx⟩
          · rw [hV] at hcv; cases hcv
          · have hc1 : c.1 < w := by
              rw [Finset.mem_product, Finset.mem_range] at hcg
              exact hcg.1
            have hq1 : q.1 < w := (hgrid q hq).1
            have : q = c := cellIdx_inj hq1 hc1 hidx
            rw [this] at hq
            exact absurd hq hcin
  rw [hset, Finset.card_sdiff hsub]
  have hcard : add.toFinset.card = add.length := List.toFinset_card_of_nodup hnd
  have hle : add.toFinset.card
      ≤ (((Finset.range w) ×ˢ (Finset.range h)).filter
          (fun c => V (cellIdx w c) = false)).card := Finset.card_le_card hsub
  omega

/-- Loop invariant of the BFS of `floodFill`, relative to the seed `s`
and the pre-call visited map `v₀`. -/
def ffInv (mask : ℕ → ℕ) (w h : ℕ) (s : ℕ × ℕ) (v₀ : ℕ → Bool)
    (queue : List (ℕ × ℕ)) (visited : ℕ → Bool) (pixels : List (ℕ × ℕ)) : Prop :=
  (∀ p ∈ pixels ++ queue, maskLit mask w h p ∧ connTo mask w h s p) ∧
  (∀ j, visited j = true ↔ (v₀ j = true ∨ ∃ p ∈ pixels ++ queue, cellIdx w p = j)) ∧
  (pixels ++ queue).Nodup ∧
  (∀ p ∈ pixels, ∀ q ∈ neighbors4 w h p, mask (cellIdx w q) = 255 →
    visited (cellIdx w q) = true)

/-- Postcondition of the BFS of `floodFill`: the collected pixels are
lit, connected to the seed, duplicate free and neighbor-closed into the
final visited map, which extends `v₀` by exactly their indices. -/
def ffPost (mask : ℕ → ℕ) (w h : ℕ) (s : ℕ × ℕ) (v₀ : ℕ → Bool)
    (res : List (ℕ × ℕ) × (ℕ → Bool)) : Prop :=
  (∀ p ∈ res.1, maskLit mask w h p ∧ connTo mask w h s p) ∧
  (∀ j, res.2 j = true ↔ (v₀ j = true ∨ ∃ p ∈ res.1, cellIdx w p = j)) ∧
  res.1.Nodup ∧
  (∀ p ∈ res.1, ∀ q ∈ neighbors4 w h p, mask (cellIdx w q) = 255 →
    res.2 (cellIdx w q) = true)

lemma floodFillGo_spec (mask : ℕ → ℕ) (w h : ℕ) (s : ℕ × ℕ) (v₀ : ℕ → Bool) :
    ∀ fuel queue visited pixels,
      ffInv mask w h s v₀ queue visited pixels →
      queue.length + unvisitedCount w h visited ≤ fuel →
      ffPost mask w h s v₀ (floodFillGo mask w h fuel queue visited pixels) ∧
      ∀ p ∈ pixels ++ queue, p ∈ (floodFillGo mask w h fuel queue visited pixels).1 := by
  intro fuel
  induction fuel with
  | zero =>
      intro queue visited pixels hinv hfuel
      have hq : queue = [] := List.length_eq_zero.mp (by omega)
      subst hq
      obtain ⟨i1, i2, i3, i4⟩ := hinv
      rw [List.append_nil] at i1 i2 i3
      exact ⟨⟨i1, i2, i3, i4⟩, fun p hp => by rw [List.append_nil] at hp; exact hp⟩
  | succ fuel ih =>
      intro queue visited pixels hinv hfuel
      match queue with
      | [] =>
          obtain ⟨i1, i2, i3, i4⟩ := hinv
          rw [List.append_nil] at i1 i2 i3
          exact ⟨⟨i1, i2, i3, i4⟩, fun p hp => by rw [List.append_nil] at hp; exact hp⟩
      | p :: rest =>
          obtain ⟨i1, i2, i3, i4⟩ := hinv
          have hunfold : floodFillGo mask w h (fuel + 1) (p :: rest) visited pixels
              = floodFillGo mask w h fuel
                  ((neighbors4 w h p).foldl (pushNeighbor mask w) (rest, visited)).1
                  ((neighbors4 w h p).foldl (pushNeighbor mask w) (rest, visited)).2
                  (pixels ++ [p]) := rfl
          rw [hunfold]
          obtain ⟨add, hA, hB, hC, hD, hE⟩ :=
            pushNeighbor_foldl_char mask w (neighbors4 w h p) (rest, visited)
          dsimp only at hA hC hD
          rw [hA]
          -- facts about the popped cell
          have hpmem : p ∈ pixels ++ p :: rest := by simp
          have hp := i1 p hpmem
          -- everything currently tracked is visited
          have hvis : ∀ r ∈ pixels ++ p :: rest, visited (cellIdx w r) = true := by
            intro r hr
            exact (i2 (cellIdx w r)).mpr (Or.inr ⟨r, hr, rfl⟩)
          -- properties of the newly enqueued cells
          have haddlit : ∀ q ∈ add, maskLit mask w h q := by
            intro q hq
            obtain ⟨hqn, hqm, _⟩ := hC q hq
            obtain ⟨hb1, hb2, _⟩ := mem_neighbors4.mp hqn
            exact ⟨hb1, hb2, hqm⟩
          have haddconn : ∀ q ∈ add, connTo mask w h s q := by
            intro q hq
            obtain ⟨hqn, hqm, _⟩ := hC q hq
            obtain ⟨hb1, hb2, hgeo⟩ := mem_neighbors4.mp hqn
            exact hp.2.tail ⟨hp.1, haddlit q hq, hgeo⟩
          have haddfresh : ∀ q ∈ add, q ∉ pixels ++ p :: rest := by
            intro q hq hqin
            have h1 := hvis q hqin
            have h2 := (hC q hq).2.2
            rw [h1] at h2
            cases h2
          -- the new tracked multiset: (pixels ++ [p]) ++ (rest ++ add) vs old ++ add
          have hperm : (pixels ++ [p]) ++ (rest ++ add) = (pixels ++ p :: rest) ++ add := by
            simp [List.append_assoc]
          -- invariant for the recursive call
          have hinv' : ffInv mask w h s v₀ (rest ++ add)
              ((neighbors4 w h p).foldl (pushNeighbor mask w) (rest, visited)).2
              (pixels ++ [p]) := by
            refine ⟨?_, ?_, ?_, ?_⟩
            · intro r hr
              rw [hperm] at hr
              rcases List.mem_append.mp hr with hr1 | hr2
              · exact i1 r hr1
              · exact ⟨haddlit r hr2, haddconn r hr2⟩
            · intro j
              rw [hD j]
              constructor
              · rintro (hv | ⟨q, hq, rfl⟩)
                · rcases (i2 j).mp hv with h0 | ⟨r, hr, rfl⟩
                  · exact Or.inl h0
                  · refine Or.inr ⟨r, ?_, rfl⟩
                    rw [hperm]
                    exact List.mem_append.mpr (Or.inl hr)
                · refine Or.inr ⟨q, ?_, rfl⟩
                  rw [hperm]
                  exact List.mem_append.mpr (Or.inr hq)
              · rintro (h0 | ⟨r, hr, rfl⟩)
                · exact Or.inl ((i2 _).mpr (Or.inl h0))
                · rw [hperm] at hr
                  rcases List.mem_append.mp hr with hr1 | hr2
                  · exact Or.inl ((i2 _).mpr (Or.inr ⟨r, hr1, rfl⟩))
                  · exact Or.inr ⟨r, hr2, rfl⟩
            · rw [hperm, List.nodup_append]
              exact ⟨i3, hB, fun r hr1 hr2 => haddfresh r hr2 hr1⟩
            · intro r hr q hq hqm
              rcases List.mem_append.mp hr with hr1 | hr2
              · have := i4 r hr1 q hq hqm
                exact (hD _).mpr (Or.inl this)
              · have hrp : r = p := by
                  rcases List.mem_singleton.mp hr2 with rfl
                  rfl
                subst hrp
                exact hE q hq hqm
          -- fuel accounting
          have hmeasure : (rest ++ add).length
              + unvisitedCount w h
                  ((neighbors4 w h p).foldl (pushNeighbor mask w) (rest, visited)).2
              ≤ fuel := by
            have hgrid : ∀ q ∈ add, q.1 < w ∧ q.2 < h := by
              intro q hq
              have hl := haddlit q hq
              exact ⟨hl.1, hl.2.1⟩
            have hfresh2 : ∀ q ∈ add, visited (cellIdx w q) = false :=
              fun q hq => (hC q hq).2.2
            have hcount := unvisitedCount_after w h visited
              ((neighbors4 w h p).foldl (pushNeighbor mask w) (rest, visited)).2
              add hgrid hfresh2 hB hD
            rw [List.length_append]
            simp only [List.length_cons] at hfuel
            omega
          obtain ⟨hpost, hmono⟩ := ih (rest ++ add)
            ((neighbors4 w h p).foldl (pushNeighbor mask w) (rest, visited)).2
            (pixels ++ [p]) hinv' hmeasure
          refine ⟨hpost, ?_⟩
          intro r hr
          apply hmono
          rw [hperm]
          exact List.mem_append.mpr (Or.inl hr)

lemma floodFill_spec (mask : ℕ → ℕ) (w h : ℕ) (s : ℕ × ℕ) (v₀ : ℕ → Bool)
    (hs : maskLit mask w h s)
    (hv₀ : ∀ q, maskLit mask w h q → connTo mask w h s q → v₀ (cellIdx w q) = false) :
    (floodFill mask w h s.1 s.2 v₀).1.toFinset = component mask w h s ∧
    (floodFill mask w h s.1 s.2 v₀).1.Nodup ∧
    (∀ j, (floodFill mask w h s.1 s.2 v₀).2 j = true ↔
      (v₀ j = true ∨ ∃ q ∈ component mask w h s, cellIdx w q = j)) ∧
    s ∈ (floodFill mask w h s.1 s.2 v₀).1 := by
  have hUinit : ∀ v : ℕ → Bool, unvisitedCount w h v ≤ w * h := by
    intro v
    unfold unvisitedCount
    calc (((Finset.range w) ×ˢ (Finset.range h)).filter
          fun c => v (cellIdx w c) = false).card
        ≤ ((Finset.range w) ×ˢ (Finset.range h)).card := Finset.card_filter_le _ _
      _ = w * h := by rw [Finset.card_product, Finset.card_range, Finset.card_range]
  have hinv : ffInv mask w h s v₀ [s]
      (fun j => if j = s.2 * w + s.1 then true else v₀ j) [] := by
    refine ⟨?_, ?_, ?_, ?_⟩
    · intro p hp
      rw [List.nil_append, List.mem_singleton] at hp
      subst hp
      exact ⟨hs, Relation.ReflTransGen.refl⟩
    · intro j
      dsimp only
      constructor
      · intro hj
        by_cases hje : j = s.2 * w + s.1
        · exact Or.inr ⟨s, by simp, hje.symm⟩
        · rw [if_neg hje] at hj
          exact Or.inl hj
      · rintro (hj | ⟨p, hp, rfl⟩)
        · by_cases hje : j = s.2 * w + s.1
          · rw [if_pos hje]
          · rw [if_neg hje]
            exact hj
        · rw [List.nil_append, List.mem_singleton] at hp
          subst hp
          simp [cellIdx]
    · exact List.nodup_singleton s
    · intro p hp
      cases hp
  have hfuel : ([s] : List (ℕ × ℕ)).length
      + unvisitedCount w h (fun j => if j = s.2 * w + s.1 then true else v₀ j)
      ≤ w * h + 1 := by
    have := hUinit (fun j => if j = s.2 * w + s.1 then true else v₀ j)
    simp only [List.length_singleton]
    omega
  obtain ⟨⟨p1, p2, p3, p4⟩, pmono⟩ :=
    floodFillGo_spec mask w h s v₀ (w * h + 1) [s]
      (fun j => if j = s.2 * w + s.1 then true else v₀ j) [] hinv hfuel
  have P1 : ∀ p ∈ (floodFill mask w h s.1 s.2 v₀).1,
      maskLit mask w h p ∧ connTo mask w h s p := p1
  have P2 : ∀ j, (floodFill mask w h s.1 s.2 v₀).2 j = true ↔
      (v₀ j = true ∨ ∃ p ∈ (floodFill mask w h s.1 s.2 v₀).1, cellIdx w p = j) := p2
  have P3 : (floodFill mask w h s.1 s.2 v₀).1.Nodup := p3
  have P4 : ∀ p ∈ (floodFill mask w h s.1 s.2 v₀).1, ∀ q ∈ neighbors4 w h p,
      mask (cellIdx w q) = 255 →
      (floodFill mask w h s.1 s.2 v₀).2 (cellIdx w q) = true := p4
  have Pmono : ∀ p ∈ ([] : List (ℕ × ℕ)) ++ [s],
      p ∈ (floodFill mask w h s.1 s.2 v₀).1 := pmono
  have hsmem : s ∈ (floodFill mask w h s.1 s.2 v₀).1 := by
    apply Pmono
    simp
  have hset : (floodFill mask w h s.1 s.2 v₀).1.toFinset = component mask w h s := by
    ext r
    rw [List.mem_toFinset, mem_component]
    constructor
    · intro hr
      obtain ⟨hl, hc⟩ := P1 r hr
      exact ⟨hl.1, hl.2.1, hc⟩
    · rintro ⟨hr1, hr2, hconn⟩
      clear hr1 hr2
      induction hconn with
      | refl => exact hsmem
      | tail hpath hstep ih =>
          rename_i b c
          have hb : b ∈ (floodFill mask w h s.1 s.2 v₀).1 := ih
          have hlitc : maskLit mask w h c := hstep.2.1
          have hcn : c ∈ neighbors4 w h b :=
            mem_neighbors4.mpr ⟨hlitc.1, hlitc.2.1, hstep.2.2⟩
          have hvc := P4 b hb c hcn hlitc.2.2
          rcases (P2 (cellIdx w c)).mp hvc with hv0 | ⟨q, hq, hidx⟩
          · have := hv₀ c hlitc (hpath.tail hstep)
            rw [this] at hv0
            cases hv0
          · have hq1 : q.1 < w := (P1 q hq).1.1
            have : q = c := cellIdx_inj hq1 hlitc.1 hidx
            rw [this] at hq
            exact hq
  refine ⟨hset, P3, ?_, hsmem⟩
  intro j
  rw [P2 j]
  constructor
  · rintro (h0 | ⟨q, hq, rfl⟩)
    · exact Or.inl h0
    · refine Or.inr ⟨q, ?_, rfl⟩
      rw [← hset, List.mem_toFinset]
      exact hq
  · rintro (h0 | ⟨q, hq, rfl⟩)
    · exact Or.inl h0
    · refine Or.inr ⟨q, ?_, rfl⟩
      rw [← hset, List.mem_toFinset] at hq
      exact hq

/-- Invariant of the `findLargestBlob` scan state: the visited map is a
union of whole components of lit cells, and the best blob so far (when
present) is a full component whose size dominates every component already
merged into the visited map. -/
def scanInv (mask : ℕ → ℕ) (w h : ℕ)
    (st : (ℕ → Bool) × Option (List (ℕ × ℕ)) × ℕ) : Prop :=
  (∀ j, st.1 j = true → ∃ q, maskLit mask w h q ∧ cellIdx w q = j) ∧
  (∀ q, maskLit mask w h q → st.1 (cellIdx w q) = true →
    ∀ r ∈ component mask w h q, st.1 (cellIdx w r) = true) ∧
  (match st.2.1 with
    | none => (∀ j, st.1 j = false) ∧ st.2.2 = 0
    | some l => l.Nodup ∧
        (∃ seed, maskLit mask w h seed ∧ l.toFinset = component mask w h seed) ∧
        st.2.2 = l.length ∧ 1 ≤ l.length ∧
        (∀ q, maskLit mask w h q → st.1 (cellIdx w q) = true →
          (component mask w h q).card ≤ st.2.2))

lemma scan_foldl_spec (mask : ℕ → ℕ) (w h : ℕ) :
    ∀ (l : List (ℕ × ℕ)) (st : (ℕ → Bool) × Option (List (ℕ × ℕ)) × ℕ),
      (∀ p ∈ l, p.1 < w ∧ p.2 < h) →
      scanInv mask w h st →
      scanInv mask w h (l.foldl (scanStep mask w h) st) ∧
      (∀ p ∈ l, mask (cellIdx w p) = 255 →
        (l.foldl (scanStep mask w h) st).1 (cellIdx w p) = true) ∧
      (∀ j, st.1 j = true → (l.foldl (scanStep mask w h) st).1 j = true) := by
  intro l
  induction l with
  | nil =>
      intro st _ hinv
      exact ⟨hinv, by simp, fun j hj => hj⟩
  | cons p t ih =>
      intro st hl hinv
      simp only [List.foldl_cons]
      have hpg : p.1 < w ∧ p.2 < h := hl p (List.mem_cons_self _ _)
      have hlt : ∀ r ∈ t, r.1 < w ∧ r.2 < h :=
        fun r hr => hl r (List.mem_cons_of_mem p hr)
      by_cases hcase : mask (cellIdx w p) = 255 ∧ st.1 (cellIdx w p) = false
      · -- a new lit, unvisited cell: flood fill runs
        have hlitp : maskLit mask w h p := ⟨hpg.1, hpg.2, hcase.1⟩
        have hv₀ : ∀ q, maskLit mask w h q → connTo mask w h p q →
            st.1 (cellIdx w q) = false := by
          intro q hlq hconn
          cases hb : st.1 (cellIdx w q) with
          | false => rfl
          | true =>
              have hall := hinv.2.1 q hlq hb
              have hpin : p ∈ component mask w h q :=
                mem_component.mpr ⟨hpg.1, hpg.2, connTo_symm hconn⟩
              have := hall p hpin
              rw [hcase.2] at this
              cases this
        obtain ⟨ffset, ffnd, ffchar, ffmem⟩ := floodFill_spec mask w h p st.1 hlitp hv₀
        have fflen : (floodFill mask w h p.1 p.2 st.1).1.length
            = (component mask w h p).card := by
          rw [← ffset]
          exact (List.toFinset_card_of_nodup ffnd).symm
        have fflen1 : 1 ≤ (floodFill mask w h p.1 p.2 st.1).1.length :=
          List.length_pos.mpr (List.ne_nil_of_mem ffmem)
        have hstep : scanStep mask w h st p
            = (if st.2.2 < (floodFill mask w h p.1 p.2 st.1).1.length then
                ((floodFill mask w h p.1 p.2 st.1).2,
                  some (floodFill mask w h p.1 p.2 st.1).1,
                  (floodFill mask w h p.1 p.2 st.1).1.length)
              else ((floodFill mask w h p.1 p.2 st.1).2, st.2.1, st.2.2)) := by
          unfold scanStep
          rw [if_pos hcase]
        -- the new visited map in either branch
        have hv1 : (scanStep mask w h st p).1 = (floodFill mask w h p.1 p.2 st.1).2 := by
          rw [hstep]
          split <;> rfl
        have hS1 : ∀ j, (scanStep mask w h st p).1 j = true →
            ∃ q, maskLit mask w h q ∧ cellIdx w q = j := by
          intro j hj
          rw [hv1] at hj
          rcases (ffchar j).mp hj with h0 | ⟨q, hq, rfl⟩
          · exact hinv.1 j h0
          · obtain ⟨hq1, hq2, hqc⟩ := mem_component.mp hq
            exact ⟨q, connTo_lit hlitp hqc, rfl⟩
        have hS2 : ∀ q, maskLit mask w h q → (scanStep mask w h st p).1 (cellIdx w q) = true →
            ∀ r ∈ component mask w h q, (scanStep mask w h st p).1 (cellIdx w r) = true := by
          intro q hlq hq r hr
          rw [hv1] at hq ⊢
          rcases (ffchar (cellIdx w q)).mp hq with h0 | ⟨q', hq', hidx⟩
          · have := hinv.2.1 q hlq h0 r hr
            exact (ffchar (cellIdx w r)).mpr (Or.inl this)
          · have hq'1 : q'.1 < w := (mem_component.mp hq').1
            have : q' = q := cellIdx_inj hq'1 hlq.1 hidx
            subst this
            have hconnpq : connTo mask w h p q' := (mem_component.mp hq').2.2
            have hcomp : component mask w h q' = component mask w h p :=
              component_eq_of_connTo hconnpq
            rw [hcomp] at hr
            exact (ffchar (cellIdx w r)).mpr (Or.inr ⟨r, hr, rfl⟩)
        have hpvis : (scanStep mask w h st p).1 (cellIdx w p) = true := by
          rw [hv1]
          exact (ffchar (cellIdx w p)).mpr (Or.inr ⟨p, self_mem_component hlitp, rfl⟩)
        have hinv' : scanInv mask w h (scanStep mask w h st p) := by
          refine ⟨hS1, hS2, ?_⟩
          by_cases hbr : st.2.2 < (floodFill mask w h p.1 p.2 st.1).1.length
          · have hst2 : (scanStep mask w h st p).2
                = (some (floodFill mask w h p.1 p.2 st.1).1,
                  (floodFill mask w h p.1 p.2 st.1).1.length) := by
              rw [hstep, if_pos hbr]
            rw [Prod.ext_iff] at hst2
            rw [hst2.1]
            refine ⟨ffnd, ⟨p, hlitp, ffset⟩, hst2.2.symm ▸ rfl, fflen1, ?_⟩
            intro q hlq hq
            rw [hv1] at hq
            rw [hst2.2]
            rcases (ffchar (cellIdx w q)).mp hq with h0 | ⟨q', hq', hidx⟩
            · -- q was visited before this flood fill
              have hm := hinv.2.2
              cases hb : st.2.1 with
              | none =>
                  rw [hb] at hm
                  have := hm.1 (cellIdx w q)
                  rw [this] at h0
                  cases h0
              | some lold =>
                  rw [hb] at hm
                  have := hm.2.2.2.2 q hlq h0
                  omega
            · have hq'1 : q'.1 < w := (mem_component.mp hq').1
              have : q' = q := cellIdx_inj hq'1 hlq.1 hidx
              subst this
              have hcomp : component mask w h q' = component mask w h p :=
                component_eq_of_connTo (mem_component.mp hq').2.2
              rw [hcomp, ← fflen]
          · have hst2 : (scanStep mask w h st p).2 = (st.2.1, st.2.2) := by
              rw [hstep, if_neg hbr]
            rw [Prod.ext_iff] at hst2
            rw [hst2.1]
            have hm := hinv.2.2
            cases hb : st.2.1 with
            | none =>
                rw [hb] at hm
                omega
            | some lold =>
                rw [hb] at hm
                obtain ⟨hnd, hseed, hlenold, hge1, hmax⟩ := hm
                refine ⟨hnd, hseed, hst2.2 ▸ hlenold, hge1, ?_⟩
                intro q hlq hq
                rw [hv1] at hq
                rw [hst2.2]
                rcases (ffchar (cellIdx w q)).mp hq with h0 | ⟨q', hq', hidx⟩
                · exact hmax q hlq h0
                · have hq'1 : q'.1 < w := (mem_component.mp hq').1
                  have : q' = q := cellIdx_inj hq'1 hlq.1 hidx
                  subst this
                  have hcomp : component mask w h q' = component mask w h p :=
                    component_eq_of_connTo (mem_component.mp hq').2.2
                  rw [hcomp, ← fflen]
                  omega
        obtain ⟨r1, r2, r3⟩ := ih (scanStep mask w h st p) hlt hinv'
        refine ⟨r1, ?_, ?_⟩
        · intro r hr hrm
          rcases List.mem_cons.mp hr with rfl | hrt
          · exact r3 _ hpvis
          · exact r2 r hrt hrm
        · intro j hj
          apply r3
          rw [hv1]
          exact (ffchar j).mpr (Or.inl hj)
      · -- skipped cell: either not lit, or already visited
        have hstep : scanStep mask w h st p = st := by
          unfold scanStep
          rw [if_neg hcase]
        rw [hstep]
        obtain ⟨r1, r2, r3⟩ := ih st hlt hinv
        refine ⟨r1, ?_, r3⟩
        intro r hr hrm
        rcases List.mem_cons.mp hr with rfl | hrt
        · apply r3
          cases hb : st.1 (cellIdx w r) with
          | false => exact absurd ⟨hrm, hb⟩ hcase
          | true => rfl
        · exact r2 r hrt hrm

lemma mem_cellList {w h : ℕ} {p : ℕ × ℕ} :
    p ∈ cellList w h ↔ p.1 < w ∧ p.2 < h := by
  unfold cellList
  simp only [List.mem_join, List.mem_map]
  constructor
  · rintro ⟨l, ⟨y, hy, rfl⟩, hp⟩
    obtain ⟨x, hx, rfl⟩ := List.mem_map.mp hp
    exact ⟨List.mem_range.mp hx, List.mem_range.mp hy⟩
  · rintro ⟨h1, h2⟩
    refine ⟨_, ⟨p.2, List.mem_range.mpr h2, rfl⟩, ?_⟩
    exact List.mem_map.mpr ⟨p.1, List.mem_range.mpr h1, rfl⟩

/-- Full characterization of `findLargestBlob`: it returns `none` exactly
when no cell is lit, and otherwise a duplicate-free enumeration of a
whole 4-connected component whose size is the maximum component size. -/
lemma findLargestBlob_spec (mask : ℕ → ℕ) (w h : ℕ) :
    (findLargestBlob mask w h = none ↔ ∀ p, ¬ maskLit mask w h p) ∧
    (∀ blob, findLargestBlob mask w h = some blob →
      blob.pixels.Nodup ∧
      (∃ seed, maskLit mask w h seed ∧
        blob.pixels.toFinset = component mask w h seed) ∧
      blob.pixels.length = largestCompSize mask w h) := by
  have hinit : scanInv mask w h ((fun _ => false), none, 0) := by
    refine ⟨?_, ?_, ?_⟩
    · intro j hj
      simp at hj
    · intro q _ hq
      simp at hq
    · exact ⟨fun j => rfl, rfl⟩
  obtain ⟨sinv, svis, _⟩ := scan_foldl_spec mask w h (cellList w h)
    ((fun _ => false), none, 0)
    (fun p hp => mem_cellList.mp hp) hinit
  set F := (cellList w h).foldl (scanStep mask w h) ((fun _ => false), none, 0) with hF
  have hfb : findLargestBlob mask w h = F.2.1.map (fun l => Blob.mk l) := rfl
  constructor
  · rw [hfb]
    constructor
    · intro hnone p hlitp
      have h21 : F.2.1 = none := Option.map_eq_none'.mp hnone
      have hm := sinv.2.2
      rw [h21] at hm
      have hvp := svis p (mem_cellList.mpr ⟨hlitp.1, hlitp.2.1⟩) hlitp.2.2
      have := hm.1 (cellIdx w p)
      rw [this] at hvp
      cases hvp
    · intro hnolit
      cases hb : F.2.1 with
      | none => rfl
      | some l =>
          have hm := sinv.2.2
          rw [hb] at hm
          obtain ⟨_, ⟨seed, hseedlit, _⟩, _⟩ := hm
          exact absurd hseedlit (hnolit seed)
  · intro blob hsome
    rw [hfb] at hsome
    obtain ⟨l, hl, heq⟩ := Option.map_eq_some'.mp hsome
    have hm := sinv.2.2
    rw [hl] at hm
    obtain ⟨hnd, ⟨seed, hseedlit, hset⟩, hlen, hge1, hmax⟩ := hm
    have hpix : blob.pixels = l := by rw [← heq]
    have hcardseed : (component mask w h seed).card = l.length := by
      rw [← hset]
      exact List.toFinset_card_of_nodup hnd
    have hsup : largestCompSize mask w h = l.length := by
      unfold largestCompSize
      apply le_antisymm
      · apply Finset.sup_le
        intro q hq
        rw [Finset.mem_filter] at hq
        have hlq := hq.2
        have hvq := svis q (mem_cellList.mpr ⟨hlq.1, hlq.2.1⟩) hlq.2.2
        have := hmax q hlq hvq
        omega
      · rw [← hcardseed]
        have hmem : seed ∈ (Finset.range w ×ˢ Finset.range h).filter (maskLit mask w h) := by
          rw [Finset.mem_filter, Finset.mem_product, Finset.mem_range, Finset.mem_range]
          exact ⟨⟨hseedlit.1, hseedlit.2.1⟩, hseedlit⟩
        exact @Finset.le_sup ℕ (ℕ × ℕ) _ _
          ((Finset.range w ×ˢ Finset.range h).filter (maskLit mask w h))
          (fun p => (component mask w h p).card) seed hmem
    rw [hpix, hsup]
    exact ⟨hnd, ⟨seed, hseedlit, hset⟩, rfl⟩

/-! ### Claim C3 — largest blob extraction and the minimum-size gate -/

/-- C3: `findLargestBlob` returns `none` exactly when no mask pixel is
255, and otherwise the 4-connected component of lit pixels with the most
pixels; `detectScreenArea` returns `none` precisely when the largest
component of its processed mask has fewer than `minBlobSize` pixels, and
otherwise its `pixelCount` is exactly that largest component's size (so
two disjoint lit regions yield the single larger detection). -/
theorem c3_largest_blob_detection :
    (∀ (mask : ℕ → ℕ) (w h : ℕ),
      (findLargestBlob mask w h = none ↔ ∀ p, ¬ maskLit mask w h p) ∧
      (∀ blob, findLargestBlob mask w h = some blob →
        blob.pixels.Nodup ∧
        (∃ seed, maskLit mask w h seed ∧
          blob.pixels.toFinset = component mask w h seed) ∧
        blob.pixels.length = largestCompSize mask w h)) ∧
    (∀ base active : Frame,
      (detectScreenArea base active = none ↔
        largestCompSize (processedMaskOf base active) base.width base.height
          < CONFIG_minBlobSize) ∧
      (∀ d, detectScreenArea base active = some d →
        d.pixelCount
          = largestCompSize (processedMaskOf base active) base.width base.height ∧
        CONFIG_minBlobSize ≤ d.pixelCount)) := by
  refine ⟨fun mask w h => findLargestBlob_spec mask w h, ?_⟩
  intro base active
  rcases hfb : findLargestBlob (processedMaskOf base active) base.width base.height
    with _ | blob
  · have hnolit := (findLargestBlob_spec (processedMaskOf base active)
      base.width base.height).1.mp hfb
    have hzero : largestCompSize (processedMaskOf base active) base.width base.height
        = 0 := by
      unfold largestCompSize
      rw [Finset.filter_false_of_mem]
      · simp
      · intro q _
        exact hnolit q
    have hdet : detectScreenArea base active = none := by
      simp only [detectScreenArea]
      rw [hfb]
    constructor
    · rw [hdet, hzero]
      unfold CONFIG_minBlobSize
      constructor
      · intro _
        norm_num
      · intro _
        rfl
    · intro d hd
      rw [hdet] at hd
      cases hd
  · have hprops := (findLargestBlob_spec (processedMaskOf base active)
      base.width base.height).2 blob hfb
    have hlen := hprops.2.2
    by_cases hlt : blob.pixels.length < CONFIG_minBlobSize
    · have hdet : detectScreenArea base active = none := by
        simp only [detectScreenArea]
        rw [hfb]
        dsimp only
        rw [if_pos hlt]
      constructor
      · rw [hdet, ← hlen]
        exact ⟨fun _ => hlt, fun _ => rfl⟩
      · intro d hd
        rw [hdet] at hd
        cases hd
    · have hdet : ∃ d, detectScreenArea base active = some d ∧
          d.pixelCount = blob.pixels.length := by
        simp only [detectScreenArea]
        rw [hfb]
        dsimp only
        rw [if_neg hlt]
        exact ⟨_, rfl, rfl⟩
      obtain ⟨d0, hd0, hd0len⟩ := hdet
      constructor
      · rw [hd0, ← hlen]
        constructor
        · intro hc
          cases hc
        · intro hc
          exact absurd hc hlt
      · intro d hd
        rw [hd0] at hd
        have : d0 = d := by injection hd
        rw [← this, hd0len, hlen]
        rw [← hlen]
        exact ⟨rfl, le_of_not_lt hlt⟩

/-- Witness for C3 at a concrete mask: on the 2 × 2 mask with only pixel
(0, 0) lit, `findLargestBlob` returns exactly that single-pixel blob, and
its size 1 is the largest component size. -/
theorem c3_witness :
    findLargestBlob wMask 2 2 = some ⟨[(0, 0)]⟩ ∧
    (1 : ℕ) = largestCompSize wMask 2 2 := by
  have hfb : findLargestBlob wMask 2 2 = some ⟨[(0, 0)]⟩ := by decide
  refine ⟨hfb, ?_⟩
  have h := (c3_largest_blob_detection.1 wMask 2 2).2 ⟨[(0, 0)]⟩ hfb
  exact h.2.2

/-! ### The scan orchestrator (`startScan`) -/

/-- The observable actions of one `startScan` call: socket emissions,
console output, camera captures, and timed waits. -/
inductive ScanAction where
  | emitClearPositions : ScanAction
  | emitBroadcastColor : ℕ × ℕ × ℕ → ScanAction
  | emitSendColor : String → ℕ × ℕ × ℕ → ScanAction
  | emitReportPosition : String → ℝ → ℝ → Rect → ScanAction
  | consoleLog : String → ScanAction
  | consoleWarn : String → ScanAction
  | captureFrame : ScanAction
  | sleep : ℕ → ScanAction

/-- A registered screen as seen by the orchestrator. -/
structure ScanScreen where
  socketId : String
  name : String

/-- The per-screen segment of the scan loop: flash white, settle,
capture three frames, detect against the base frame, report the
detection (or warn), then turn the screen off and cool down. `k` is the
index of this screen's first capture in the capture oracle. -/
noncomputable def scanScreenTrace (oracle : ℕ → Frame) (baseFrame : Frame)
    (k : ℕ) (s : ScanScreen) : List ScanAction :=
  [ScanAction.emitSendColor s.socketId (255, 255, 255),
    ScanAction.sleep 400,
    ScanAction.captureFrame, ScanAction.sleep 30,
    ScanAction.captureFrame, ScanAction.sleep 30,
    ScanAction.captureFrame, ScanAction.sleep 30]
  ++ (match detectScreenArea baseFrame
        (averageFrames [oracle k, oracle (k + 1), oracle (k + 2)]) with
      | some d =>
          [ScanAction.consoleLog (s.name ++ " detected"),
            ScanAction.emitReportPosition s.socketId d.center.1 d.center.2 d.area]
      | none => [ScanAction.consoleWarn (s.name ++ " not detected")])
  ++ [ScanAction.emitSendColor s.socketId (0, 0, 0), ScanAction.sleep 250]

/-- The result of a `startScan` call: its observable action trace and
whether the `isScanning` flag was ever touched. -/
structure ScanRun where
  actions : List ScanAction
  scanningToggled : Bool

/-- Embedding of `startScan()`: the guard
`if (!webcamStream || screens.length === 0) return;` exits immediately —
before any state change, emission, log or capture; otherwise the full
scan sequence runs: clear positions, broadcast black, settle, three
averaged base captures, then the per-screen probe loop. -/
noncomputable def startScan (webcam : Bool) (screens : List ScanScreen)
    (oracle : ℕ → Frame) : ScanRun :=
  if webcam = false ∨ screens = [] then ⟨[], false⟩
  else
    ⟨[ScanAction.emitClearPositions,
        ScanAction.consoleLog "[SCAN] Starting advanced scan...",
        ScanAction.emitBroadcastColor (0, 0, 0),
        ScanAction.sleep 600,
        ScanAction.captureFrame, ScanAction.sleep 50,
        ScanAction.captureFrame, ScanAction.sleep 50,
        ScanAction.captureFrame, ScanAction.sleep 50,
        ScanAction.consoleLog "[SCAN] Base frame captured (averaged from 3 frames)"]
      ++ ((List.range screens.length).map fun i =>
            scanScreenTrace oracle (averageFrames [oracle 0, oracle 1, oracle 2])
              (3 + 3 * i) (screens.getD i ⟨"", ""⟩)).join
      ++ [ScanAction.consoleLog "[SCAN] Scan complete"],
      true⟩

/-! ### Claim C9 — startScan with zero screens (corrected) -/

/-- Counterexample to C9 as stated: invoked with a webcam but zero
registered screens, `startScan` produces no action at all — in
particular it does not report the contract violation in any way (no
console output, no emission); it halts silently. -/
theorem c9_counterexample :
    startScan true [] (fun _ => ⟨0, 0, fun _ => 0⟩) = ⟨[], false⟩ ∧
    ∀ a ∈ (startScan true [] (fun _ => ⟨0, 0, fun _ => 0⟩)).actions, False := by
  have h : startScan true [] (fun _ => ⟨0, 0, fun _ => 0⟩) = ⟨[], false⟩ := by
    unfold startScan
    rw [if_pos (Or.inr rfl)]
  refine ⟨h, ?_⟩
  intro a ha
  rw [h] at ha
  cases ha

/-- C9 (amended): when `startScan` is invoked with zero registered
screens or without a webcam stream, it halts that scan silently: it
captures no frames, emits no color / clear-positions / position-report
messages, writes nothing to the console, and leaves all state unchanged
(the `isScanning` flag is never touched). It does not report the
violation. -/
theorem c9_startScan_guard_silent (webcam : Bool) (screens : List ScanScreen)
    (oracle : ℕ → Frame) (hguard : webcam = false ∨ screens = []) :
    startScan webcam screens oracle = ⟨[], false⟩ := by
  unfold startScan
  rw [if_pos hguard]

/-- Witness for C9 (amended) at a concrete input: no webcam stream and a
single registered screen. -/
theorem c9_witness :
    startScan false [⟨"s1", "Screen 1"⟩] (fun _ => ⟨0, 0, fun _ => 0⟩) = ⟨[], false⟩ :=
  c9_startScan_guard_silent false [⟨"s1", "Screen 1"⟩] (fun _ => ⟨0, 0, fun _ => 0⟩)
    (Or.inl rfl)

/-! ### Support lemmas for claim C1 -/

lemma foldl_op_choice {α : Type} (op : ℕ → ℕ → ℕ) (hop : ∀ a b, op a b = a ∨ op a b = b)
    (f : α → ℕ) (l : List α) (init : ℕ) :
    l.foldl (fun m p => op m (f p)) init = init ∨
      ∃ p ∈ l, l.foldl (fun m p => op m (f p)) init = f p := by
  induction l generalizing init with
  | nil => exact Or.inl rfl
  | cons a t ih =>
      simp only [List.foldl_cons]
      rcases ih (op init (f a)) with heq | ⟨p, hp, heq⟩
      · rcases hop init (f a) with ho | ho
        · exact Or.inl (heq.trans ho)
        · exact Or.inr ⟨a, List.mem_cons_self _ _, heq.trans ho⟩
      · exact Or.inr ⟨p, List.mem_cons_of_mem a hp, heq⟩

lemma list_sum_nonneg_r {l : List ℝ} (h : ∀ x ∈ l, 0 ≤ x) : 0 ≤ l.sum := by
  induction l with
  | nil => simp
  | cons a t ih =>
      simp only [List.sum_cons]
      have := h a (List.mem_cons_self a t)
      have := ih fun x hx => h x (List.mem_cons_of_mem a hx)
      linarith

lemma list_weighted_sum_le (l : List (ℕ × ℕ)) (c : ℕ × ℕ → ℕ) (g : ℕ × ℕ → ℝ) (B : ℝ)
    (hg : ∀ p ∈ l, 0 ≤ g p) (hB : ∀ p ∈ l, (c p : ℝ) ≤ B) :
    (l.map fun p => (c p : ℝ) * g p).sum ≤ B * (l.map g).sum := by
  induction l with
  | nil => simp
  | cons a t ih =>
      simp only [List.map_cons, List.sum_cons]
      have h1 : (c a : ℝ) * g a ≤ B * g a :=
        mul_le_mul_of_nonneg_right (hB a (List.mem_cons_self a t))
          (hg a (List.mem_cons_self a t))
      have h2 := ih (fun p hp => hg p (List.mem_cons_of_mem a hp))
        (fun p hp => hB p (List.mem_cons_of_mem a hp))
      calc (c a : ℝ) * g a + (t.map fun p => (c p : ℝ) * g p).sum
          ≤ B * g a + B * (t.map g).sum := by linarith
        _ = B * (g a + (t.map g).sum) := by ring

lemma list_weighted_sum_nonneg (l : List (ℕ × ℕ)) (c : ℕ × ℕ → ℕ) (g : ℕ × ℕ → ℝ)
    (hg : ∀ p ∈ l, 0 ≤ g p) :
    0 ≤ (l.map fun p => (c p : ℝ) * g p).sum := by
  apply list_sum_nonneg_r
  intro x hx
  obtain ⟨p, hp, rfl⟩ := List.mem_map.mp hx
  exact mul_nonneg (by positivity) (hg p hp)

/-! ### Gaussian kernel facts -/

lemma gaussKernelRaw_pos (r : ℕ) (k : ℤ) : 0 < gaussKernelRaw r k := Real.exp_pos _

lemma gaussKernelSum_pos (r : ℕ) : 0 < gaussKernelSum r := by
  unfold gaussKernelSum
  apply Finset.sum_pos
  · intro j _
    exact gaussKernelRaw_pos r _
  · exact Finset.nonempty_range_iff.mpr (by omega)

lemma gaussKernel_pos (r : ℕ) (k : ℤ) : 0 < gaussKernel r k :=
  div_pos (gaussKernelRaw_pos r k) (gaussKernelSum_pos r)

lemma blurWeightSum_eq_one (r : ℕ) : blurWeightSum r = 1 := by
  unfold blurWeightSum gaussKernel
  rw [← Finset.sum_div]
  exact div_self (gaussKernelSum_pos r).ne'

lemma gaussKernelRaw_neg (r : ℕ) (k : ℤ) : gaussKernelRaw r (-k) = gaussKernelRaw r k := by
  unfold gaussKernelRaw
  congr 1
  push_cast
  ring

lemma gaussKernel_neg (r : ℕ) (k : ℤ) : gaussKernel r (-k) = gaussKernel r k := by
  unfold gaussKernel
  rw [gaussKernelRaw_neg]

/-! ### Non-negativity through the blur -/

lemma gaussianBlurH_nonneg (data : ℕ → ℝ) (w h r : ℕ) (hdata : ∀ i, 0 ≤ data i) :
    ∀ i, 0 ≤ gaussianBlurH data w h r i := by
  intro i
  unfold gaussianBlurH
  split
  · apply div_nonneg _ (by rw [blurWeightSum_eq_one]; norm_num)
    apply Finset.sum_nonneg
    intro j _
    exact mul_nonneg (hdata _) (gaussKernel_pos r _).le
  · exact le_refl 0

lemma gaussianBlurV_nonneg (data : ℕ → ℝ) (w h r : ℕ) (hdata : ∀ i, 0 ≤ data i) :
    ∀ i, 0 ≤ gaussianBlurV data w h r i := by
  intro i
  unfold gaussianBlurV
  split
  · apply div_nonneg _ (by rw [blurWeightSum_eq_one]; norm_num)
    apply Finset.sum_nonneg
    intro j _
    exact mul_nonneg (hdata _) (gaussKernel_pos r _).le
  · exact le_refl 0

lemma blurredDiffOf_nonneg (base active : Frame) : ∀ i, 0 ≤ blurredDiffOf base active i := by
  intro i
  unfold blurredDiffOf gaussianBlur
  apply gaussianBlurV_nonneg
  apply gaussianBlurH_nonneg
  intro j
  unfold diffMapOf
  exact le_max_left 0 _

/-! ### Bounds for the normalized center point -/

lemma normalizePointToSquare_mem (x y : ℝ) (w h : ℕ) (hw : 0 < w) (hh : 0 < h)
    (hx0 : 0 ≤ x) (hxw : x ≤ w) (hy0 : 0 ≤ y) (hyh : y ≤ h) :
    0 ≤ (normalizePointToSquare x y w h).1 ∧ (normalizePointToSquare x y w h).1 ≤ 1 ∧
    0 ≤ (normalizePointToSquare x y w h).2 ∧ (normalizePointToSquare x y w h).2 ≤ 1 := by
  have hwR : (0 : ℝ) < w := by exact_mod_cast hw
  have hhR : (0 : ℝ) < h := by exact_mod_cast hh
  unfold normalizePointToSquare
  by_cases hlw : h ≤ w
  · rw [if_pos hlw]
    have hsR : (h : ℝ) ≤ w := by exact_mod_cast hlw
    have h1 : 0 ≤ x / w := div_nonneg hx0 hwR.le
    have h2 : x / w ≤ 1 := by rw [div_le_one hwR]; exact hxw
    have hy1 : 0 ≤ y / h := div_nonneg hy0 hhR.le
    have hy2 : y / h ≤ 1 := by rw [div_le_one hhR]; exact hyh
    have hs1 : 0 < (h : ℝ) / w := div_pos hhR hwR
    have hs2 : (h : ℝ) / w ≤ 1 := by rw [div_le_one hwR]; exact hsR
    refine ⟨h1, h2, ?_, ?_⟩
    · nlinarith
    · nlinarith
  · rw [if_neg hlw]
    have hsR : (w : ℝ) ≤ h := by
      have : w ≤ h := le_of_not_le hlw
      exact_mod_cast this
    have h1 : 0 ≤ y / h := div_nonneg hy0 hhR.le
    have h2 : y / h ≤ 1 := by rw [div_le_one hhR]; exact hyh
    have hx1 : 0 ≤ x / w := div_nonneg hx0 hwR.le
    have hx2 : x / w ≤ 1 := by rw [div_le_one hwR]; exact hxw
    have hs1 : 0 < (w : ℝ) / h := div_pos hwR hhR
    have hs2 : (w : ℝ) / h ≤ 1 := by rw [div_le_one hhR]; exact hsR
    refine ⟨?_, ?_, h1, h2⟩
    · nlinarith
    · nlinarith

/-! ### Claim C1 — normalized bounds of detections (corrected) -/

/-- C1 (amended): every detection's center lies in `[0,1]²` and its area
rectangle has `x, y ∈ [0,1]` and `width, height` in the configured
`[minNormalizedArea, maxNormalizedArea]` range — componentwise bounds.
(The rectangle need not fit inside the unit square: the clamping is
componentwise, and `area.x + area.width` can exceed 1; see the
counterexample.) -/
theorem c1_detection_bounds (base active : Frame) (d : Detection)
    (hd : detectScreenArea base active = some d) :
    0 ≤ d.center.1 ∧ d.center.1 ≤ 1 ∧ 0 ≤ d.center.2 ∧ d.center.2 ≤ 1 ∧
    0 ≤ d.area.x ∧ d.area.x ≤ 1 ∧ 0 ≤ d.area.y ∧ d.area.y ≤ 1 ∧
    CONFIG_minNormalizedArea ≤ d.area.width ∧
    d.area.width ≤ CONFIG_maxNormalizedArea ∧
    CONFIG_minNormalizedArea ≤ d.area.height ∧
    d.area.height ≤ CONFIG_maxNormalizedArea := by
  rcases hfb : findLargestBlob (processedMaskOf base active) base.width base.height
    with _ | blob
  · simp only [detectScreenArea, hfb] at hd
    cases hd
  · simp only [detectScreenArea, hfb] at hd
    by_cases hlt : blob.pixels.length < CONFIG_minBlobSize
    · rw [if_pos hlt] at hd
      cases hd
    · rw [if_neg hlt] at hd
      rw [Option.some.injEq] at hd
      subst hd
      obtain ⟨hnd, ⟨seed, hseedlit, hset⟩, hlen⟩ :=
        (findLargestBlob_spec (processedMaskOf base active)
          base.width base.height).2 blob hfb
      have hbounds : ∀ p ∈ blob.pixels, p.1 < base.width ∧ p.2 < base.height := by
        intro p hp
        have : p ∈ blob.pixels.toFinset := List.mem_toFinset.mpr hp
        rw [hset] at this
        obtain ⟨h1, h2, _⟩ := mem_component.mp this
        exact ⟨h1, h2⟩
      have hne : blob.pixels ≠ [] := by
        intro hnil
        rw [hnil] at hlt
        exact hlt (by unfold CONFIG_minBlobSize; norm_num)
      obtain ⟨p₀, hp₀⟩ := List.exists_mem_of_ne_nil blob.pixels hne
      have hW : 0 < base.width := lt_of_le_of_lt (Nat.zero_le _) (hbounds p₀ hp₀).1
      have hH : 0 < base.height := lt_of_le_of_lt (Nat.zero_le _) (hbounds p₀ hp₀).2
      have hminX : blob.pixels.foldl (fun m p => min m p.1) base.width ≤ base.width := by
        rcases foldl_op_choice min min_choice Prod.fst blob.pixels base.width
          with heq | ⟨p, hp, heq⟩
        · rw [heq]
        · rw [heq]; exact (hbounds p hp).1.le
      have hmaxX : blob.pixels.foldl (fun m p => max m p.1) 0 ≤ base.width := by
        rcases foldl_op_choice max max_choice Prod.fst blob.pixels 0
          with heq | ⟨p, hp, heq⟩
        · rw [heq]; exact Nat.zero_le _
        · rw [heq]; exact (hbounds p hp).1.le
      have hminY : blob.pixels.foldl (fun m p => min m p.2) base.height ≤ base.height := by
        rcases foldl_op_choice min min_choice Prod.snd blob.pixels base.height
          with heq | ⟨p, hp, heq⟩
        · rw [heq]
        · rw [heq]; exact (hbounds p hp).2.le
      have hmaxY : blob.pixels.foldl (fun m p => max m p.2) 0 ≤ base.height := by
        rcases foldl_op_choice max max_choice Prod.snd blob.pixels 0
          with heq | ⟨p, hp, heq⟩
        · rw [heq]; exact Nat.zero_le _
        · rw [heq]; exact (hbounds p hp).2.le
      have hgnn : ∀ p ∈ blob.pixels,
          0 ≤ blurredDiffOf base active (cellIdx base.width p) :=
        fun p _ => blurredDiffOf_nonneg base active _
      have htWnn : 0 ≤ (blob.pixels.map fun p =>
          blurredDiffOf base active (cellIdx base.width p)).sum := by
        apply list_sum_nonneg_r
        intro x hx
        obtain ⟨p, hp, rfl⟩ := List.mem_map.mp hx
        exact hgnn p hp
      have hcX : 0 ≤ (if 0 < (blob.pixels.map fun p =>
            blurredDiffOf base active (cellIdx base.width p)).sum then
            (blob.pixels.map fun p =>
              (p.1 : ℝ) * blurredDiffOf base active (cellIdx base.width p)).sum
              / (blob.pixels.map fun p =>
                  blurredDiffOf base active (cellIdx base.width p)).sum
          else (((blob.pixels.foldl (fun m p => min m p.1) base.width : ℕ) : ℝ)
              + ((blob.pixels.foldl (fun m p => max m p.1) 0 : ℕ) : ℝ)) / 2) ∧
          (if 0 < (blob.pixels.map fun p =>
            blurredDiffOf base active (cellIdx base.width p)).sum then
            (blob.pixels.map fun p =>
              (p.1 : ℝ) * blurredDiffOf base active (cellIdx base.width p)).sum
              / (blob.pixels.map fun p =>
                  blurredDiffOf base active (cellIdx base.width p)).sum
          else (((blob.pixels.foldl (fun m p => min m p.1) base.width : ℕ) : ℝ)
              + ((blob.pixels.foldl (fun m p => max m p.1) 0 : ℕ) : ℝ)) / 2) ≤ base.width := by
        split
        · next htW =>
            constructor
            · exact div_nonneg (list_weighted_sum_nonneg blob.pixels Prod.fst _ hgnn) htWnn
            · rw [div_le_iff htW]
              exact list_weighted_sum_le blob.pixels Prod.fst _ (base.width) hgnn
                (fun p hp => by exact_mod_cast (hbounds p hp).1.le)
        · constructor
          · positivity
          · have h1 : ((blob.pixels.foldl (fun m p => min m p.1) base.width : ℕ) : ℝ)
                ≤ base.width := by exact_mod_cast hminX
            have h2 : ((blob.pixels.foldl (fun m p => max m p.1) 0 : ℕ) : ℝ)
                ≤ base.width := by exact_mod_cast hmaxX
            linarith
      have hcY : 0 ≤ (if 0 < (blob.pixels.map fun p =>
            blurredDiffOf base active (cellIdx base.width p)).sum then
            (blob.pixels.map fun p =>
              (p.2 : ℝ) * blurredDiffOf base active (cellIdx base.width p)).sum
              / (blob.pixels.map fun p =>
                  blurredDiffOf base active (cellIdx base.width p)).sum
          else (((blob.pixels.foldl (fun m p => min m p.2) base.height : ℕ) : ℝ)
              + ((blob.pixels.foldl (fun m p => max m p.2) 0 : ℕ) : ℝ)) / 2) ∧
          (if 0 < (blob.pixels.map fun p =>
            blurredDiffOf base active (cellIdx base.width p)).sum then
            (blob.pixels.map fun p =>
              (p.2 : ℝ) * blurredDiffOf base active (cellIdx base.width p)).sum
              / (blob.pixels.map fun p =>
                  blurredDiffOf base active (cellIdx base.width p)).sum
          else (((blob.pixels.foldl (fun m p => min m p.2) base.height : ℕ) : ℝ)
              + ((blob.pixels.foldl (fun m p => max m p.2) 0 : ℕ) : ℝ)) / 2) ≤ base.height := by
        split
        · next htW =>
            constructor
            · exact div_nonneg (list_weighted_sum_nonneg blob.pixels Prod.snd _ hgnn) htWnn
            · rw [div_le_iff htW]
              exact list_weighted_sum_le blob.pixels Prod.snd _ (base.height) hgnn
                (fun p hp => by exact_mod_cast (hbounds p hp).2.le)
        · constructor
          · positivity
          · have h1 : ((blob.pixels.foldl (fun m p => min m p.2) base.height : ℕ) : ℝ)
                ≤ base.height := by exact_mod_cast hminY
            have h2 : ((blob.pixels.foldl (fun m p => max m p.2) 0 : ℕ) : ℝ)
                ≤ base.height := by exact_mod_cast hmaxY
            linarith
      obtain ⟨hc1, hc2, hc3, hc4⟩ := normalizePointToSquare_mem _ _
        base.width base.height hW hH hcX.1 hcX.2 hcY.1 hcY.2
      obtain ⟨ha1, ha2, ha3, ha4, ha5, ha6, ha7, ha8⟩ := clampRect_spec
        (normalizeRectToSquare _ (base.width : ℚ) (base.height : ℚ))
      exact ⟨hc1, hc2, hc3, hc4, ha1, ha2, ha3, ha4, ha5, ha6, ha7, ha8⟩

/-! ### Claim C1 counterexample: a 2000 × 1 frame pair whose detection
rectangle sticks out of the unit square.

The active frame shows a dim value-10 background with a bright value-100
band in the rightmost 34 columns; the detected blob hugs the right edge,
its normalized width 34/2000 < 0.02 is clamped up to 0.02, and
`area.x + area.width = 1965/2000 + 1/50 > 1`. -/

/-- The all-black reference frame (2000 × 1). -/
def baseW : Frame := ⟨2000, 1, fun _ => 0⟩

/-- The probe frame: gray value 10 everywhere except columns
1966-1999, which have value 100 (per-byte: pixel `i / 4`). -/
def activeW : Frame := ⟨2000, 1, fun i => if 1966 ≤ i / 4 then 100 else 10⟩

/-- The luminance difference map the pipeline computes on these frames. -/
noncomputable def c1Diff : ℕ → ℝ := fun p => if 1966 ≤ p then 100 else 10

lemma c1Diff_lt {p : ℕ} (hp : p < 1966) : c1Diff p = 10 := by
  unfold c1Diff
  rw [if_neg (by omega)]

lemma c1Diff_ge {p : ℕ} (hp : 1966 ≤ p) : c1Diff p = 100 := by
  unfold c1Diff
  rw [if_pos hp]

lemma c1_diff_eq : diffMapOf baseW activeW = c1Diff := by
  funext p
  have h0 : p * 4 / 4 = p := by omega
  have h1 : (p * 4 + 1) / 4 = p := by omega
  have h2 : (p * 4 + 2) / 4 = p := by omega
  unfold diffMapOf luminance baseW activeW c1Diff
  dsimp only
  rw [h0, h1, h2]
  by_cases hp : 1966 ≤ p
  · rw [if_pos hp]
    rw [max_eq_right (by norm_num)]
    rw [if_pos hp]
    norm_num
  · rw [if_neg hp]
    rw [max_eq_right (by norm_num)]
    rw [if_neg hp]
    norm_num

lemma sum_range_five (f : ℕ → ℝ) :
    ∑ j ∈ Finset.range 5, f j = f 0 + f 1 + f 2 + f 3 + f 4 := by
  rw [Finset.sum_range_succ, Finset.sum_range_succ, Finset.sum_range_succ,
    Finset.sum_range_succ, Finset.sum_range_one]

lemma c1_ksum : gaussKernel 2 (-2) + gaussKernel 2 (-1) + gaussKernel 2 0
    + gaussKernel 2 1 + gaussKernel 2 2 = 1 := by
  have h := blurWeightSum_eq_one 2
  unfold blurWeightSum at h
  rw [show 2 * 2 + 1 = 5 from rfl, sum_range_five] at h
  norm_num at h
  linarith

/-- The four kernel-dependent blurred values at the edge of the bright
band. -/
noncomputable def c1A : ℝ := 10 + 90 * gaussKernel 2 2

/-- Blurred value one column left of the band. -/
noncomputable def c1Bv : ℝ := 10 + 90 * (gaussKernel 2 1 + gaussKernel 2 2)

/-- Blurred value at the first band column. -/
noncomputable def c1Cv : ℝ := 10 + 90 * (gaussKernel 2 0 + gaussKernel 2 1 + gaussKernel 2 2)

/-- Blurred value at the second band column. -/
noncomputable def c1Dv : ℝ := 100 - 90 * gaussKernel 2 2

/-- The blurred difference map on the counterexample frames, in closed
form. -/
noncomputable def c1B : ℕ → ℝ := fun x =>
  if x < 2000 then
    if x ≤ 1963 then 10
    else if x = 1964 then c1A
    else if x = 1965 then c1Bv
    else if x = 1966 then c1Cv
    else if x = 1967 then c1Dv
    else 100
  else 0

lemma c1_blurH_eq : gaussianBlurH c1Diff 2000 1 2 = c1B := by
  funext x
  by_cases hx : x < 2000
  · have hxd : x / 2000 = 0 := Nat.div_eq_of_lt hx
    have hxm : x % 2000 = x := Nat.mod_eq_of_lt hx
    unfold gaussianBlurH
    rw [if_pos (by omega : x < 2000 * 1)]
    rw [blurWeightSum_eq_one, div_one]
    rw [show 2 * 2 + 1 = 5 from rfl, sum_range_five]
    rw [hxd, hxm]
    simp only [zero_mul, zero_add]
    norm_num
    unfold c1B
    rw [if_pos hx]
    by_cases h1 : x ≤ 1963
    · rw [if_pos h1]
      rw [c1Diff_lt (by unfold clampIdx; omega), c1Diff_lt (by unfold clampIdx; omega),
        c1Diff_lt (by unfold clampIdx; omega), c1Diff_lt (by unfold clampIdx; omega),
        c1Diff_lt (by unfold clampIdx; omega)]
      linear_combination (10 : ℝ) * c1_ksum
    rw [if_neg h1]
    by_cases h2 : x = 1964
    · subst h2
      rw [if_pos rfl]
      rw [c1Diff_lt (by unfold clampIdx; omega), c1Diff_lt (by unfold clampIdx; omega),
        c1Diff_lt (by unfold clampIdx; omega), c1Diff_lt (by unfold clampIdx; omega),
        c1Diff_ge (by unfold clampIdx; omega)]
      unfold c1A
      linear_combination (10 : ℝ) * c1_ksum
    rw [if_neg h2]
    by_cases h3 : x = 1965
    · subst h3
      rw [if_pos rfl]
      rw [c1Diff_lt (by unfold clampIdx; omega), c1Diff_lt (by unfold clampIdx; omega),
        c1Diff_lt (by unfold clampIdx; omega), c1Diff_ge (by unfold clampIdx; omega),
        c1Diff_ge (by unfold clampIdx; omega)]
      unfold c1Bv
      linear_combination (10 : ℝ) * c1_ksum
    rw [if_neg h3]
    by_cases h4 : x = 1966
    · subst h4
      rw [if_pos rfl]
      rw [c1Diff_lt (by unfold clampIdx; omega), c1Diff_lt (by unfold clampIdx; omega),
        c1Diff_ge (by unfold clampIdx; omega), c1Diff_ge (by unfold clampIdx; omega),
        c1Diff_ge (by unfold clampIdx; omega)]
      unfold c1Cv
      linear_combination (10 : ℝ) * c1_ksum
    rw [if_neg h4]
    by_cases h5 : x = 1967
    · subst h5
      rw [if_pos rfl]
      rw [c1Diff_lt (by unfold clampIdx; omega), c1Diff_ge (by unfold clampIdx; omega),
        c1Diff_ge (by unfold clampIdx; omega), c1Diff_ge (by unfold clampIdx; omega),
        c1Diff_ge (by unfold clampIdx; omega)]
      unfold c1Dv
      linear_combination (100 : ℝ) * c1_ksum - 90 * gaussKernel_neg 2 2
    rw [if_neg h5]
    rw [c1Diff_ge (by unfold clampIdx; omega), c1Diff_ge (by unfold clampIdx; omega),
      c1Diff_ge (by unfold clampIdx; omega), c1Diff_ge (by unfold clampIdx; omega),
      c1Diff_ge (by unfold clampIdx; omega)]
    linear_combination (100 : ℝ) * c1_ksum
  · unfold gaussianBlurH c1B
    rw [if_neg (by omega), if_neg hx]

lemma c1_blurV_eq : gaussianBlurV c1B 2000 1 2 = c1B := by
  funext x
  by_cases hx : x < 2000
  · have hxd : x / 2000 = 0 := Nat.div_eq_of_lt hx
    have hxm : x % 2000 = x := Nat.mod_eq_of_lt hx
    unfold gaussianBlurV
    rw [if_pos (by omega : x < 2000 * 1)]
    rw [hxd, hxm]
    have hcl : ∀ k : ℤ, (clampIdx (((0 : ℕ) : ℤ) + k) (((1 : ℕ) : ℤ) - 1)).toNat = 0 := by
      intro k
      unfold clampIdx
      omega
    simp only [hcl, zero_mul, zero_add]
    rw [← Finset.mul_sum]
    have hs := blurWeightSum_eq_one 2
    unfold blurWeightSum at hs
    rw [hs, blurWeightSum_eq_one, mul_one, div_one]
  · unfold gaussianBlurV c1B
    rw [if_neg (by omega), if_neg hx]

/-- The blurred difference map of the counterexample frames is exactly
`c1B`: the vertical pass is the identity on a one-row image. -/
lemma c1_blurred_eq : blurredDiffOf baseW activeW = c1B := by
  show gaussianBlur (diffMapOf baseW activeW) 2000 1 2 = c1B
  unfold gaussianBlur
  rw [c1_diff_eq, c1_blurH_eq, c1_blurV_eq]

/-! Numeric bounds for the radius-2 Gaussian kernel entries. -/

lemma c1_raw0 : gaussKernelRaw 2 0 = 1 := by
  unfold gaussKernelRaw
  norm_num

lemma c1_raw1 : gaussKernelRaw 2 1 = Real.exp (-(1 / 2)) := by
  unfold gaussKernelRaw
  congr 1
  norm_num

lemma c1_rawm1 : gaussKernelRaw 2 (-1) = Real.exp (-(1 / 2)) := by
  unfold gaussKernelRaw
  congr 1
  norm_num

lemma c1_raw2 : gaussKernelRaw 2 2 = Real.exp (-2) := by
  unfold gaussKernelRaw
  congr 1
  norm_num

lemma c1_rawm2 : gaussKernelRaw 2 (-2) = Real.exp (-2) := by
  unfold gaussKernelRaw
  congr 1
  norm_num

lemma c1_exp_two_gt : (7 : ℝ) < Real.exp 2 := by
  have h : Real.exp 2 = Real.exp 1 * Real.exp 1 := by
    rw [← Real.exp_add]
    norm_num
  nlinarith [Real.exp_one_gt_d9, Real.exp_pos 1, h]

lemma c1_E2_lt : Real.exp (-2) < 1 / 7 := by
  have hp : (0 : ℝ) < Real.exp 2 := Real.exp_pos 2
  rw [Real.exp_neg, show (1 : ℝ) / 7 = 7⁻¹ by norm_num, inv_lt_inv hp (by norm_num)]
  exact c1_exp_two_gt

lemma c1_exp_half_sq : Real.exp (1 / 2) * Real.exp (1 / 2) = Real.exp 1 := by
  rw [← Real.exp_add]
  norm_num

lemma c1_exp_half_lt : Real.exp ((1 : ℝ) / 2) < 2 := by
  nlinarith [Real.exp_one_lt_d9, Real.exp_pos ((1 : ℝ) / 2), sq_nonneg (Real.exp (1 / 2) - 2),
    c1_exp_half_sq]

lemma c1_exp_half_gt : (8 / 5 : ℝ) < Real.exp ((1 : ℝ) / 2) := by
  nlinarith [Real.exp_one_gt_d9, Real.exp_pos ((1 : ℝ) / 2), c1_exp_half_sq]

lemma c1_E1_gt : (1 / 2 : ℝ) < Real.exp (-(1 / 2)) := by
  rw [Real.exp_neg, show (1 : ℝ) / 2 = 2⁻¹ by norm_num]
  rw [inv_lt_inv (by norm_num) (Real.exp_pos _)]
  convert c1_exp_half_lt using 2
  norm_num

lemma c1_E1_lt : Real.exp (-(1 / 2)) < 5 / 8 := by
  rw [Real.exp_neg, show (5 : ℝ) / 8 = ((8 : ℝ) / 5)⁻¹ by norm_num]
  rw [inv_lt_inv (Real.exp_pos _) (by norm_num)]
  exact c1_exp_half_gt

lemma c1_S_eq : gaussKernelSum 2 = 1 + 2 * Real.exp (-(1 / 2)) + 2 * Real.exp (-2) := by
  unfold gaussKernelSum
  rw [show 2 * 2 + 1 = 5 from rfl, sum_range_five]
  norm_num
  rw [c1_rawm2, c1_rawm1, c1_raw0, c1_raw1, c1_raw2]
  ring

lemma c1_k2_lt : gaussKernel 2 2 < 1 / 9 := by
  unfold gaussKernel
  rw [c1_raw2, div_lt_div_iff (gaussKernelSum_pos 2) (by norm_num : (0 : ℝ) < 9)]
  rw [c1_S_eq]
  linarith [c1_E2_lt, Real.exp_pos (-(1 / 2) : ℝ)]

lemma c1_k12_gt : 1 / 9 < gaussKernel 2 1 + gaussKernel 2 2 := by
  unfold gaussKernel
  rw [div_add_div_same, c1_raw1, c1_raw2]
  rw [div_lt_div_iff (by norm_num : (0 : ℝ) < 9) (gaussKernelSum_pos 2)]
  rw [c1_S_eq]
  linarith [c1_E1_gt, Real.exp_pos (-2 : ℝ)]

lemma c1_k12_lt : gaussKernel 2 1 + gaussKernel 2 2 < 1 / 3 := by
  unfold gaussKernel
  rw [div_add_div_same, c1_raw1, c1_raw2]
  rw [div_lt_div_iff (gaussKernelSum_pos 2) (by norm_num : (0 : ℝ) < 3)]
  rw [c1_S_eq]
  linarith [c1_E1_lt, c1_E2_lt]

lemma c1_k012_gt : 1 / 3 < gaussKernel 2 0 + gaussKernel 2 1 + gaussKernel 2 2 := by
  unfold gaussKernel
  rw [div_add_div_same, div_add_div_same, c1_raw0, c1_raw1, c1_raw2]
  rw [div_lt_div_iff (by norm_num : (0 : ℝ) < 3) (gaussKernelSum_pos 2)]
  rw [c1_S_eq]
  linarith [Real.exp_pos (-(1 / 2) : ℝ), Real.exp_pos (-2 : ℝ)]

/-- The four kernel-dependent blurred values sum to exactly 220. -/
lemma c1_mid_sum : c1A + c1Bv + c1Cv + c1Dv = 220 := by
  unfold c1A c1Bv c1Cv c1Dv
  linear_combination (90 : ℝ) * c1_ksum - 90 * gaussKernel_neg 2 1 - 90 * gaussKernel_neg 2 2

/-- Each of the four kernel-dependent blurred values lies in `[10, 100]`. -/
lemma c1_vals_bounds : (10 ≤ c1A ∧ c1A ≤ 100) ∧ (10 ≤ c1Bv ∧ c1Bv ≤ 100) ∧
    (10 ≤ c1Cv ∧ c1Cv ≤ 100) ∧ (10 ≤ c1Dv ∧ c1Dv ≤ 100) := by
  have h2 := gaussKernel_pos 2 2
  have h1 := gaussKernel_pos 2 1
  have h0 := gaussKernel_pos 2 0
  have hm1 := gaussKernel_pos 2 (-1)
  have hm2 := gaussKernel_pos 2 (-2)
  have hs := c1_ksum
  unfold c1A c1Bv c1Cv c1Dv
  refine ⟨⟨?_, ?_⟩, ⟨?_, ?_⟩, ⟨?_, ?_⟩, ⟨?_, ?_⟩⟩ <;> linarith

lemma c1B_low {i : ℕ} (h : i ≤ 1963) : c1B i = 10 := by
  unfold c1B
  rw [if_pos (by omega : i < 2000), if_pos h]

lemma c1B_1964 : c1B 1964 = c1A := by norm_num [c1B]

lemma c1B_1965 : c1B 1965 = c1Bv := by norm_num [c1B]

lemma c1B_1966 : c1B 1966 = c1Cv := by norm_num [c1B]

lemma c1B_1967 : c1B 1967 = c1Dv := by norm_num [c1B]

lemma c1B_high {i : ℕ} (h1 : 1968 ≤ i) (h2 : i < 2000) : c1B i = 100 := by
  unfold c1B
  rw [if_pos h2, if_neg (by omega), if_neg (by omega), if_neg (by omega), if_neg (by omega),
    if_neg (by omega)]

lemma c1B_out {i : ℕ} (h : 2000 ≤ i) : c1B i = 0 := by
  unfold c1B
  rw [if_neg (by omega)]

lemma c1_sum_split {M : Type} [AddCommMonoid M] (f : ℕ → M) :
    ∑ i ∈ Finset.range 2000, f i =
      (∑ i ∈ Finset.Ico 0 1964, f i) + (f 1964 + f 1965 + f 1966 + f 1967)
      + ∑ i ∈ Finset.Ico 1968 2000, f i := by
  rw [Finset.range_eq_Ico,
    ← Finset.sum_Ico_consecutive f (by omega : (0 : ℕ) ≤ 1968) (by omega : (1968 : ℕ) ≤ 2000),
    ← Finset.sum_Ico_consecutive f (by omega : (0 : ℕ) ≤ 1964) (by omega : (1964 : ℕ) ≤ 1968)]
  congr 1
  congr 1
  rw [Finset.sum_Ico_eq_sum_range]
  rw [show 1968 - 1964 = 4 from rfl]
  rw [Finset.sum_range_succ, Finset.sum_range_succ, Finset.sum_range_succ,
    Finset.sum_range_one]
  try norm_num

lemma c1_count : (∑ i ∈ Finset.range 2000, if (5 : ℝ) < c1B i then (1 : ℕ) else 0) = 2000 := by
  rw [c1_sum_split (fun i => if (5 : ℝ) < c1B i then (1 : ℕ) else 0)]
  obtain ⟨⟨hA1, hA2⟩, ⟨hB1, hB2⟩, ⟨hC1, hC2⟩, ⟨hD1, hD2⟩⟩ := c1_vals_bounds
  have hlow : (∑ i ∈ Finset.Ico 0 1964, if (5 : ℝ) < c1B i then (1 : ℕ) else 0) = 1964 := by
    have hc : ∀ i ∈ Finset.Ico 0 1964, (if (5 : ℝ) < c1B i then (1 : ℕ) else 0) = 1 := by
      intro i hi
      rw [Finset.mem_Ico] at hi
      rw [c1B_low (by omega), if_pos (by norm_num)]
    rw [Finset.sum_congr rfl hc, Finset.sum_const, Nat.card_Ico]
    norm_num [smul_eq_mul]
  have hhigh : (∑ i ∈ Finset.Ico 1968 2000, if (5 : ℝ) < c1B i then (1 : ℕ) else 0) = 32 := by
    have hc : ∀ i ∈ Finset.Ico 1968 2000, (if (5 : ℝ) < c1B i then (1 : ℕ) else 0) = 1 := by
      intro i hi
      rw [Finset.mem_Ico] at hi
      rw [c1B_high (by omega) (by omega), if_pos (by norm_num)]
    rw [Finset.sum_congr rfl hc, Finset.sum_const, Nat.card_Ico]
    norm_num [smul_eq_mul]
  rw [hlow, hhigh, c1B_1964, c1B_1965, c1B_1966, c1B_1967,
    if_pos (by linarith : (5 : ℝ) < c1A), if_pos (by linarith : (5 : ℝ) < c1Bv),
    if_pos (by linarith : (5 : ℝ) < c1Cv), if_pos (by linarith : (5 : ℝ) < c1Dv)]
  norm_num

lemma c1_sumv : (∑ i ∈ Finset.range 2000, if (5 : ℝ) < c1B i then c1B i else 0) = 23060 := by
  rw [c1_sum_split (fun i => if (5 : ℝ) < c1B i then c1B i else 0)]
  obtain ⟨⟨hA1, hA2⟩, ⟨hB1, hB2⟩, ⟨hC1, hC2⟩, ⟨hD1, hD2⟩⟩ := c1_vals_bounds
  have hlow : (∑ i ∈ Finset.Ico 0 1964, if (5 : ℝ) < c1B i then c1B i else 0) = 19640 := by
    have hc : ∀ i ∈ Finset.Ico 0 1964, (if (5 : ℝ) < c1B i then c1B i else 0) = 10 := by
      intro i hi
      rw [Finset.mem_Ico] at hi
      rw [c1B_low (by omega), if_pos (by norm_num)]
    rw [Finset.sum_congr rfl hc, Finset.sum_const, Nat.card_Ico]
    norm_num
  have hhigh : (∑ i ∈ Finset.Ico 1968 2000, if (5 : ℝ) < c1B i then c1B i else 0) = 3200 := by
    have hc : ∀ i ∈ Finset.Ico 1968 2000, (if (5 : ℝ) < c1B i then c1B i else 0) = 100 := by
      intro i hi
      rw [Finset.mem_Ico] at hi
      rw [c1B_high (by omega) (by omega), if_pos (by norm_num)]
    rw [Finset.sum_congr rfl hc, Finset.sum_const, Nat.card_Ico]
    norm_num
  rw [hlow, hhigh, c1B_1964, c1B_1965, c1B_1966, c1B_1967,
    if_pos (by linarith : (5 : ℝ) < c1A), if_pos (by linarith : (5 : ℝ) < c1Bv),
    if_pos (by linarith : (5 : ℝ) < c1Cv), if_pos (by linarith : (5 : ℝ) < c1Dv)]
  linarith [c1_mid_sum]

lemma c1_sumsq_le :
    (∑ i ∈ Finset.range 2000, if (5 : ℝ) < c1B i then c1B i * c1B i else 0) ≤ 556400 := by
  rw [c1_sum_split (fun i => if (5 : ℝ) < c1B i then c1B i * c1B i else 0)]
  obtain ⟨⟨hA1, hA2⟩, ⟨hB1, hB2⟩, ⟨hC1, hC2⟩, ⟨hD1, hD2⟩⟩ := c1_vals_bounds
  have hlow : (∑ i ∈ Finset.Ico 0 1964, if (5 : ℝ) < c1B i then c1B i * c1B i else 0)
      = 196400 := by
    have hc : ∀ i ∈ Finset.Ico 0 1964, (if (5 : ℝ) < c1B i then c1B i * c1B i else 0) = 100 := by
      intro i hi
      rw [Finset.mem_Ico] at hi
      rw [c1B_low (by omega), if_pos (by norm_num)]
      norm_num
    rw [Finset.sum_congr rfl hc, Finset.sum_const, Nat.card_Ico]
    norm_num
  have hhigh : (∑ i ∈ Finset.Ico 1968 2000, if (5 : ℝ) < c1B i then c1B i * c1B i else 0)
      = 320000 := by
    have hc : ∀ i ∈ Finset.Ico 1968 2000,
        (if (5 : ℝ) < c1B i then c1B i * c1B i else 0) = 10000 := by
      intro i hi
      rw [Finset.mem_Ico] at hi
      rw [c1B_high (by omega) (by omega), if_pos (by norm_num)]
      norm_num
    rw [Finset.sum_congr rfl hc, Finset.sum_const, Nat.card_Ico]
    norm_num
  rw [hlow, hhigh, c1B_1964, c1B_1965, c1B_1966, c1B_1967,
    if_pos (by linarith : (5 : ℝ) < c1A), if_pos (by linarith : (5 : ℝ) < c1Bv),
    if_pos (by linarith : (5 : ℝ) < c1Cv), if_pos (by linarith : (5 : ℝ) < c1Dv)]
  have hA : c1A * c1A ≤ 10000 := by nlinarith
  have hB : c1Bv * c1Bv ≤ 10000 := by nlinarith
  have hC : c1Cv * c1Cv ≤ 10000 := by nlinarith
  have hD : c1Dv * c1Dv ≤ 10000 := by nlinarith
  linarith

/-- On the counterexample frames the adaptive threshold collapses to the
configured minimum 40: the mean is 11.53 and the standard deviation is
small enough that `mean + 1.5·stdDev < 40`. -/
lemma c1_threshold : thresholdOf baseW activeW = 40 := by
  have h0 : thresholdOf baseW activeW = calculateAdaptiveThreshold c1B 2000 1 := by
    unfold thresholdOf
    rw [show baseW.width = 2000 from rfl, show baseW.height = 1 from rfl, c1_blurred_eq]
  rw [h0]
  unfold calculateAdaptiveThreshold
  rw [show 2000 * 1 = 2000 from rfl]
  rw [c1_count, c1_sumv]
  rw [if_neg (by norm_num : (2000 : ℕ) ≠ 0)]
  rw [show ((2000 : ℕ) : ℝ) = 2000 by norm_num]
  rw [show ((CONFIG_brightnessThreshold : ℚ) : ℝ) = 40 by
    unfold CONFIG_brightnessThreshold
    norm_num]
  have hle : (∑ i ∈ Finset.range 2000, if (5 : ℝ) < c1B i then c1B i * c1B i else 0) / 2000
      - 23060 / 2000 * (23060 / 2000) ≤ 324 := by
    linarith [c1_sumsq_le]
  have hs1 : Real.sqrt ((∑ i ∈ Finset.range 2000,
      if (5 : ℝ) < c1B i then c1B i * c1B i else 0) / 2000
        - 23060 / 2000 * (23060 / 2000)) ≤ 18 := by
    calc Real.sqrt ((∑ i ∈ Finset.range 2000,
          if (5 : ℝ) < c1B i then c1B i * c1B i else 0) / 2000
            - 23060 / 2000 * (23060 / 2000))
        ≤ Real.sqrt 324 := Real.sqrt_le_sqrt hle
      _ = 18 := by
          rw [show (324 : ℝ) = 18 ^ 2 by norm_num, Real.sqrt_sq (by norm_num : (0 : ℝ) ≤ 18)]
  apply max_eq_left
  linarith [hs1]

/-- The binary mask of the counterexample frames: exactly the columns
`1966 .. 1999` exceed the threshold 40 (the kernel tail values at columns
1964 and 1965 stay below it). -/
def c1Mask : ℕ → ℕ := fun i => if 1966 ≤ i ∧ i < 2000 then 255 else 0

lemma c1Mask_lit {p : ℕ} (h1 : 1966 ≤ p) (h2 : p < 2000) : c1Mask p = 255 := by
  unfold c1Mask
  rw [if_pos ⟨h1, h2⟩]

lemma c1Mask_dark {p : ℕ} (h : p < 1966 ∨ 2000 ≤ p) : c1Mask p = 0 := by
  unfold c1Mask
  rw [if_neg (by omega)]

lemma c1_mask_eq : binaryMaskOf baseW activeW = c1Mask := by
  funext i
  unfold binaryMaskOf c1Mask
  rw [c1_threshold, c1_blurred_eq]
  have hk2 := c1_k2_lt
  have hk12 := c1_k12_lt
  have hk012 := c1_k012_gt
  rcases Nat.lt_or_ge i 2000 with h2 | h2
  · by_cases hl : i ≤ 1963
    · rw [c1B_low hl, if_neg (by norm_num), if_neg (by omega)]
    · by_cases h64 : i = 1964
      · subst h64
        rw [c1B_1964, if_neg (by rw [not_lt]; unfold c1A; linarith), if_neg (by omega)]
      · by_cases h65 : i = 1965
        · subst h65
          rw [c1B_1965, if_neg (by rw [not_lt]; unfold c1Bv; linarith), if_neg (by omega)]
        · by_cases h66 : i = 1966
          · subst h66
            rw [c1B_1966, if_pos (by unfold c1Cv; linarith), if_pos (by omega)]
          · by_cases h67 : i = 1967
            · subst h67
              rw [c1B_1967, if_pos (by unfold c1Dv; linarith), if_pos (by omega)]
            · rw [c1B_high (by omega) h2, if_pos (by norm_num), if_pos (by omega)]
  · rw [c1B_out h2, if_neg (by norm_num), if_neg (by omega)]

/-- The dilated counterexample mask: the lit band grows by one column on
its left (the right edge is already at the clamped image border). -/
def c1DMask : ℕ → ℕ := fun i => if 1965 ≤ i ∧ i < 2000 then 255 else 0

lemma c1DMask_lit {p : ℕ} (h1 : 1965 ≤ p) (h2 : p < 2000) : c1DMask p = 255 := by
  unfold c1DMask
  rw [if_pos ⟨h1, h2⟩]

lemma c1DMask_dark {p : ℕ} (h : p < 1965 ∨ 2000 ≤ p) : c1DMask p = 0 := by
  unfold c1DMask
  rw [if_neg (by omega)]

lemma c1_dilate_eq : dilate c1Mask 2000 1 3 = c1DMask := by
  funext i
  by_cases h64 : i = 1964
  · subst h64
    decide
  · by_cases h65 : i = 1965
    · subst h65
      decide
    · by_cases h66 : i = 1966
      · subst h66
        decide
      · rcases Nat.lt_or_ge i 2000 with hi | hi
        · unfold dilate c1DMask
          rw [if_pos (by omega : i < 2000 * 1)]
          rw [show kernelOffsets 3 = [-1, 0, 1] from rfl]
          simp only [List.foldl_cons, List.foldl_nil]
          by_cases h1 : i ≤ 1963
          · rw [if_neg (by omega)]
            rw [c1Mask_dark (by unfold clampIdx; omega), c1Mask_dark (by unfold clampIdx; omega),
              c1Mask_dark (by unfold clampIdx; omega), c1Mask_dark (by unfold clampIdx; omega),
              c1Mask_dark (by unfold clampIdx; omega), c1Mask_dark (by unfold clampIdx; omega),
              c1Mask_dark (by unfold clampIdx; omega), c1Mask_dark (by unfold clampIdx; omega),
              c1Mask_dark (by unfold clampIdx; omega)]
            omega
          · rw [if_pos (by omega)]
            rw [c1Mask_lit (by unfold clampIdx; omega) (by unfold clampIdx; omega),
              c1Mask_lit (by unfold clampIdx; omega) (by unfold clampIdx; omega),
              c1Mask_lit (by unfold clampIdx; omega) (by unfold clampIdx; omega),
              c1Mask_lit (by unfold clampIdx; omega) (by unfold clampIdx; omega),
              c1Mask_lit (by unfold clampIdx; omega) (by unfold clampIdx; omega),
              c1Mask_lit (by unfold clampIdx; omega) (by unfold clampIdx; omega),
              c1Mask_lit (by unfold clampIdx; omega) (by unfold clampIdx; omega),
              c1Mask_lit (by unfold clampIdx; omega) (by unfold clampIdx; omega),
              c1Mask_lit (by unfold clampIdx; omega) (by unfold clampIdx; omega)]
            omega
        · unfold dilate c1DMask
          rw [if_neg (by omega), if_neg (by omega)]

lemma c1_erode_eq : erode c1DMask 2000 1 3 = c1Mask := by
  funext i
  by_cases h64 : i = 1964
  · subst h64
    decide
  · by_cases h65 : i = 1965
    · subst h65
      decide
    · by_cases h66 : i = 1966
      · subst h66
        decide
      · rcases Nat.lt_or_ge i 2000 with hi | hi
        · unfold erode c1Mask
          rw [if_pos (by omega : i < 2000 * 1)]
          rw [show kernelOffsets 3 = [-1, 0, 1] from rfl]
          simp only [List.foldl_cons, List.foldl_nil]
          by_cases h1 : i ≤ 1963
          · rw [if_neg (by omega)]
            rw [c1DMask_dark (by unfold clampIdx; omega),
              c1DMask_dark (by unfold clampIdx; omega),
              c1DMask_dark (by unfold clampIdx; omega),
              c1DMask_dark (by unfold clampIdx; omega),
              c1DMask_dark (by unfold clampIdx; omega),
              c1DMask_dark (by unfold clampIdx; omega),
              c1DMask_dark (by unfold clampIdx; omega),
              c1DMask_dark (by unfold clampIdx; omega),
              c1DMask_dark (by unfold clampIdx; omega)]
            omega
          · rw [if_pos (by omega)]
            rw [c1DMask_lit (by unfold clampIdx; omega) (by unfold clampIdx; omega),
              c1DMask_lit (by unfold clampIdx; omega) (by unfold clampIdx; omega),
              c1DMask_lit (by unfold clampIdx; omega) (by unfold clampIdx; omega),
              c1DMask_lit (by unfold clampIdx; omega) (by unfold clampIdx; omega),
              c1DMask_lit (by unfold clampIdx; omega) (by unfold clampIdx; omega),
              c1DMask_lit (by unfold clampIdx; omega) (by unfold clampIdx; omega),
              c1DMask_lit (by unfold clampIdx; omega) (by unfold clampIdx; omega),
              c1DMask_lit (by unfold clampIdx; omega) (by unfold clampIdx; omega),
              c1DMask_lit (by unfold clampIdx; omega) (by unfold clampIdx; omega)]
            omega
        · unfold erode c1Mask
          rw [if_neg (by omega), if_neg (by omega)]

/-- The morphological closing leaves the counterexample mask unchanged. -/
lemma c1_processed_eq : processedMaskOf baseW activeW = c1Mask := by
  show erode (dilate (binaryMaskOf baseW activeW) 2000 1 3) 2000 1 3 = c1Mask
  rw [c1_mask_eq, c1_dilate_eq, c1_erode_eq]

/-- The pixels of the single blob of the counterexample mask, in BFS
order: columns `1966 .. 1999` of row 0. -/
def c1Pixels : List (ℕ × ℕ) := (List.range 34).map fun t => (1966 + t, 0)

set_option maxRecDepth 10000 in
lemma c1_blob : findLargestBlob c1Mask 2000 1 = some ⟨c1Pixels⟩ := by decide

lemma c1_foldl_minX : c1Pixels.foldl (fun m p => min m p.1) 2000 = 1966 := by decide

lemma c1_foldl_maxX : c1Pixels.foldl (fun m p => max m p.1) 0 = 1999 := by decide

lemma c1_foldl_minY : c1Pixels.foldl (fun m p => min m p.2) 1 = 0 := by decide

lemma c1_foldl_maxY : c1Pixels.foldl (fun m p => max m p.2) 0 = 0 := by decide

/-- The gradient refinement on the counterexample: column 1965 has blurred
difference `c1Bv > 20` (though below the binary threshold 40), so the left
edge moves from 1966 out to 1965; nothing further left qualifies. -/
lemma c1_refined : refineBoundingBox c1B 2000 1 1966 0 1999 0 = ⟨1965, 1999, 0, 0⟩ := by
  have hq65 : (20 : ℝ) < c1B (0 * 2000 + 1965) := by
    rw [show 0 * 2000 + 1965 = 1965 from rfl, c1B_1965]
    unfold c1Bv
    linarith [c1_k12_gt]
  have hq99 : (20 : ℝ) < c1B (0 * 2000 + 1999) := by
    rw [show 0 * 2000 + 1999 = 1999 from rfl, c1B_high (by omega) (by omega)]
    norm_num
  have hmem65 : ((0 : ℕ), (1965 : ℕ)) ∈ refineScan 2000 1 1966 0 1999 0 := by
    rw [mem_refineScan]
    exact ⟨by omega, by omega, by omega, by omega⟩
  have hmem99 : ((0 : ℕ), (1999 : ℕ)) ∈ refineScan 2000 1 1966 0 1999 0 := by
    rw [mem_refineScan]
    exact ⟨by omega, by omega, by omega, by omega⟩
  have hnotlow : ∀ a : ℕ × ℕ, a ∈ refineScan 2000 1 1966 0 1999 0 →
      (20 : ℝ) < c1B (a.1 * 2000 + a.2) → 1965 ≤ a.2 ∧ a.2 ≤ 1999 := by
    intro a ha hq
    obtain ⟨ha1, ha2, ha3, ha4⟩ := mem_refineScan.mp ha
    have hy : a.1 = 0 := by omega
    have hx4 : a.2 ≤ 1999 := by omega
    refine ⟨?_, hx4⟩
    by_contra hlt
    push_neg at hlt
    rw [hy] at hq
    rw [show (0 : ℕ) * 2000 + a.2 = a.2 by omega] at hq
    by_cases hl : a.2 ≤ 1963
    · rw [c1B_low hl] at hq
      norm_num at hq
    · have h64 : a.2 = 1964 := by omega
      rw [h64, c1B_1964] at hq
      unfold c1A at hq
      linarith [c1_k2_lt]
  have e1 : (refineBoundingBox c1B 2000 1 1966 0 1999 0).minX = 1965 := by
    unfold refineBoundingBox
    rw [refine_foldl_minX]
    obtain ⟨h1, h2, h3⟩ := foldl_min_char
      (fun p : ℕ × ℕ => (20 : ℝ) < c1B (p.1 * 2000 + p.2)) (fun p : ℕ × ℕ => p.2)
      (refineScan 2000 1 1966 0 1999 0) 1999
    apply le_antisymm
    · exact h2 _ hmem65 hq65
    · rcases h3 with heq | ⟨a, ha, hqa, heq⟩
      · exact le_trans (by norm_num) (le_of_eq heq.symm)
      · exact le_trans (hnotlow a ha hqa).1 (le_of_eq heq.symm)
  have e2 : (refineBoundingBox c1B 2000 1 1966 0 1999 0).maxX = 1999 := by
    unfold refineBoundingBox
    rw [refine_foldl_maxX]
    obtain ⟨h1, h2, h3⟩ := foldl_max_char
      (fun p : ℕ × ℕ => (20 : ℝ) < c1B (p.1 * 2000 + p.2)) (fun p : ℕ × ℕ => p.2)
      (refineScan 2000 1 1966 0 1999 0) 1966
    apply le_antisymm
    · rcases h3 with heq | ⟨a, ha, hqa, heq⟩
      · exact le_trans (le_of_eq heq) (by norm_num)
      · exact le_trans (le_of_eq heq) (hnotlow a ha hqa).2
    · exact h2 _ hmem99 hq99
  have e3 : (refineBoundingBox c1B 2000 1 1966 0 1999 0).minY = 0 := by
    unfold refineBoundingBox
    rw [refine_foldl_minY]
    obtain ⟨h1, h2, h3⟩ := foldl_min_char
      (fun p : ℕ × ℕ => (20 : ℝ) < c1B (p.1 * 2000 + p.2)) (fun p : ℕ × ℕ => p.1)
      (refineScan 2000 1 1966 0 1999 0) 0
    exact le_antisymm h1 (Nat.zero_le _)
  have e4 : (refineBoundingBox c1B 2000 1 1966 0 1999 0).maxY = 0 := by
    unfold refineBoundingBox
    rw [refine_foldl_maxY]
    obtain ⟨h1, h2, h3⟩ := foldl_max_char
      (fun p : ℕ × ℕ => (20 : ℝ) < c1B (p.1 * 2000 + p.2)) (fun p : ℕ × ℕ => p.1)
      (refineScan 2000 1 1966 0 1999 0) 0
    rcases h3 with heq | ⟨a, ha, hqa, heq⟩
    · exact heq
    · obtain ⟨ha1, ha2, ha3, ha4⟩ := mem_refineScan.mp ha
      have h0 : a.1 = 0 := by omega
      rw [h0] at heq
      exact heq
  have hsplit : refineBoundingBox c1B 2000 1 1966 0 1999 0 =
      ⟨(refineBoundingBox c1B 2000 1 1966 0 1999 0).minX,
        (refineBoundingBox c1B 2000 1 1966 0 1999 0).maxX,
        (refineBoundingBox c1B 2000 1 1966 0 1999 0).minY,
        (refineBoundingBox c1B 2000 1 1966 0 1999 0).maxY⟩ := rfl
  rw [e1, e2, e3, e4] at hsplit
  exact hsplit

set_option maxRecDepth 10000 in
/-- The detection produced on the counterexample frames, with its area
rectangle in closed form. -/
lemma c1_detect_area :
    ∃ dd : Detection, detectScreenArea baseW activeW = some dd ∧
      dd.area = clampRect (normalizeRectToSquare ⟨1965, 0, 34, 0⟩ 2000 1) := by
  have hfb : findLargestBlob (processedMaskOf baseW activeW) baseW.width baseW.height
      = some ⟨c1Pixels⟩ := by
    have h : findLargestBlob (processedMaskOf baseW activeW) 2000 1 = some ⟨c1Pixels⟩ := by
      rw [c1_processed_eq]
      exact c1_blob
    exact h
  rcases hd : detectScreenArea baseW activeW with _ | d
  · exfalso
    simp only [detectScreenArea, hfb] at hd
    rw [if_neg (by decide)] at hd
    exact Option.some_ne_none _ hd
  · refine ⟨d, rfl, ?_⟩
    simp only [detectScreenArea, hfb] at hd
    rw [if_neg (by decide)] at hd
    rw [Option.some.injEq] at hd
    rw [← hd]
    dsimp only
    rw [show baseW.width = 2000 from rfl, show baseW.height = 1 from rfl]
    rw [c1_blurred_eq]
    rw [c1_foldl_minX, c1_foldl_maxX, c1_foldl_minY, c1_foldl_maxY]
    rw [c1_refined]
    norm_num

/-- Counterexample to C1 as stated: on a 2000 × 1 frame pair whose bright
band hugs the right edge, the detection's clamped area has
`x = 1965/2000` while its width `34/2000 < 0.02` is clamped up to `0.02`,
so `area.x + area.width = 401/400 > 1` — the returned rectangle does not
stay inside the unit square. -/
theorem c1_counterexample :
    ∃ d : Detection, detectScreenArea baseW activeW = some d ∧
      1 < d.area.x + d.area.width := by
  obtain ⟨d, hd, ha⟩ := c1_detect_area
  refine ⟨d, hd, ?_⟩
  rw [ha]
  have hx : (clampRect (normalizeRectToSquare ⟨1965, 0, 34, 0⟩ 2000 1)).x = 393 / 400 := by
    unfold normalizeRectToSquare
    rw [if_pos (by norm_num : (1 : ℚ) ≤ 2000)]
    unfold clampRect
    dsimp only
    rw [max_eq_left (by norm_num), min_eq_left (by norm_num)]
    norm_num
  have hw : (clampRect (normalizeRectToSquare ⟨1965, 0, 34, 0⟩ 2000 1)).width = 1 / 50 := by
    unfold normalizeRectToSquare
    rw [if_pos (by norm_num : (1 : ℚ) ≤ 2000)]
    unfold clampRect CONFIG_minNormalizedArea CONFIG_maxNormalizedArea
    dsimp only
    rw [max_eq_right (by norm_num), min_eq_left (by norm_num)]
    norm_num
  rw [hx, hw]
  norm_num

/-- Witness for C1 (amended) at a concrete input: the counterexample
frames produce a detection and the componentwise bounds hold for it. -/
theorem c1_witness :
    ∃ d : Detection, detectScreenArea baseW activeW = some d ∧
      0 ≤ d.area.x ∧ d.area.x ≤ 1 ∧
      CONFIG_minNormalizedArea ≤ d.area.width ∧
      d.area.width ≤ CONFIG_maxNormalizedArea := by
  obtain ⟨d, hd, _⟩ := c1_detect_area
  obtain ⟨_, _, _, _, h5, h6, _, _, h9, h10, _, _⟩ := c1_detection_bounds baseW activeW d hd
  exact ⟨d, hd, h5, h6, h9, h10⟩
